import Mathlib

set_option maxRecDepth 100000

/-!
# Formal model of the satisfactory-planner production-chain core

The definitions below mirror the JavaScript sources of the repository:

* the batch-mode application (unnamed source file `part_000`):
  `getItem`, `getRecipeForItem`, `isOre`, `isLiquidSource`,
  `getRequiredBeltTier`, `getRequiredPipeTier`, `calculateMinerOutput`,
  `calculateMachineRate`, `calculateMachinesNeeded`,
  `calculateProductionChain` (batch mode, absolute amounts),
  `calculateTopologicalRanks`, and the bottleneck computation
  `productionTimeInfo`;
* the rate-mode variant (`src/App.jsx`), modelled in namespace `RateMode`.

Modelling conventions:

* JavaScript numbers are modelled by `ℚ`: all planner arithmetic is
  addition, multiplication and division of catalog constants.
* The synthetic node identifier string `node-<k>` is modelled by its
  counter value `k : ℕ` (the map `k ↦ "node-" ++ toString k` is
  injective, and ids are only ever compared for equality).
* The static `items.json` / `recipes.json` data files are not part of
  the source tree, so every function is parametrised by a `Catalog`
  (the JavaScript functions close over the imported global arrays).
* JavaScript's mutable `nodeIdCounter = { value: 0 }` object is
  threaded explicitly: each resolver call takes the current counter and
  returns the updated one.
* The resolver's recursion over the catalog is bounded by an explicit
  `fuel` argument; `none` models a run that does not terminate within
  `fuel` nested calls, and every terminating JavaScript run is
  reproduced verbatim by all sufficiently large fuels.
-/

/-- An item record from `items.json` (`{id, en, de, category, isLiquid?, icon?}`);
display names and icon are presentation-only and omitted. -/
structure Item where
  id : String
  category : String
  isLiquid : Bool
deriving DecidableEq, Repr

/-- One entry of a recipe's `inputs` array: `{itemId, amount}`. -/
structure RecipeInput where
  itemId : String
  amount : ℚ
deriving DecidableEq, Repr

/-- A recipe record from `recipes.json`:
`{output, outputAmount, cycleTime, building, inputs}`. -/
structure Recipe where
  output : String
  outputAmount : ℚ
  cycleTime : ℚ
  building : String
  inputs : List RecipeInput
deriving DecidableEq, Repr

/-- The static catalog (the imported `items` and `recipes` arrays). -/
structure Catalog where
  items : List Item
  recipes : List Recipe
deriving DecidableEq, Repr

/-- `getItem(itemId)`: `items.find(i => i.id === itemId)`. -/
def getItem (cat : Catalog) (itemId : String) : Option Item :=
  cat.items.find? (fun i => i.id == itemId)

/-- `getRecipeForItem(itemId)`: `recipes.find(r => r.output === itemId)`. -/
def getRecipeForItem (cat : Catalog) (itemId : String) : Option Recipe :=
  cat.recipes.find? (fun r => r.output == itemId)

/-- `isOre(itemId)`: the item exists and its category is `'Ore'`. -/
def isOre (cat : Catalog) (itemId : String) : Bool :=
  match getItem cat itemId with
  | some item => item.category == "Ore"
  | none => false

/-- `isLiquidSource(itemId)`: the three designated liquid/gas extraction
sources (part_000 lines 443-445). -/
def isLiquidSource (itemId : String) : Bool :=
  itemId == "water" || itemId == "crude-oil" || itemId == "nitrogen-gas"

/-! ## Rate/quantity engine (part_000 lines 22-33, 372-398, 462-480) -/

/-- Miner tiers `Mk.1 | Mk.2 | Mk.3` (the enumerated keys of `MINER_TIERS`). -/
inductive MinerTier
  | mk1
  | mk2
  | mk3
deriving DecidableEq, Repr

/-- Purity levels `impure | normal | pure` (the keys of `PURITY_LEVELS`). -/
inductive Purity
  | impure
  | normal
  | pureP
deriving DecidableEq, Repr

/-- `MINER_TIERS[tier].baseRate`. -/
def minerBaseRate : MinerTier → ℚ
  | .mk1 => 60
  | .mk2 => 120
  | .mk3 => 240

/-- `PURITY_LEVELS[purity].multiplier`. -/
def purityMultiplier : Purity → ℚ
  | .impure => 1 / 2
  | .normal => 1
  | .pureP => 2

/-- `calculateMinerOutput(tier, purity)` (part_000 lines 394-398). -/
def calculateMinerOutput (tier : MinerTier) (purity : Purity) : ℚ :=
  minerBaseRate tier * purityMultiplier purity

/-- One row of `BELT_TIERS` / `PIPE_TIERS`; the cosmetic `color`/`bgColor`
fields are omitted. -/
structure TransportTierEntry where
  name : String
  capacity : ℚ
deriving DecidableEq, Repr

/-- `BELT_TIERS` in object-literal (= `Object.entries`) order, ascending
capacity (part_000 lines 36-43). -/
def BELT_TIERS : List TransportTierEntry :=
  [⟨"Mk.1", 60⟩, ⟨"Mk.2", 120⟩, ⟨"Mk.3", 270⟩, ⟨"Mk.4", 480⟩, ⟨"Mk.5", 780⟩, ⟨"Mk.6", 1200⟩]

/-- `PIPE_TIERS` in object-literal order (part_000 lines 62-65). -/
def PIPE_TIERS : List TransportTierEntry :=
  [⟨"Mk.1", 300⟩, ⟨"Mk.2", 600⟩]

/-- The result shape of `getRequiredBeltTier` / `getRequiredPipeTier`. -/
structure TierSelection where
  tier : String
  capacity : ℚ
  isOverLimit : Bool
deriving DecidableEq, Repr

/-- The shared loop of `getRequiredBeltTier` / `getRequiredPipeTier`:
return the first table entry whose capacity is `≥ rate`, else the
`'LIMIT'` sentinel carrying the table's maximum capacity. -/
def findTransportTier (tiers : List TransportTierEntry) (rate : ℚ) (limitCapacity : ℚ) :
    TierSelection :=
  match tiers with
  | [] => ⟨"LIMIT", limitCapacity, true⟩
  | t :: rest =>
    if rate ≤ t.capacity then ⟨t.name, t.capacity, false⟩
    else findTransportTier rest rate limitCapacity

/-- `getRequiredBeltTier(rate)` (part_000 lines 372-380). -/
def getRequiredBeltTier (rate : ℚ) : TierSelection :=
  findTransportTier BELT_TIERS rate 1200

/-- `getRequiredPipeTier(rate)` (part_000 lines 383-391). -/
def getRequiredPipeTier (rate : ℚ) : TierSelection :=
  findTransportTier PIPE_TIERS rate 600

/-- `calculateMachineRate(recipe)` (part_000 lines 463-466):
`(outputAmount / cycleTime) * 60`, or `0` when the recipe is absent. -/
def calculateMachineRate (recipe : Option Recipe) : ℚ :=
  match recipe with
  | none => 0
  | some r => r.outputAmount / r.cycleTime * 60

/-- `calculateMachinesNeeded(amount, productionTimeMinutes, recipe)`
(part_000 lines 469-480); the result is the pair `(rounded, exact)`. -/
def calculateMachinesNeeded (amount productionTimeMinutes : ℚ) (recipe : Option Recipe) :
    ℤ × ℚ :=
  if recipe.isNone || productionTimeMinutes ≤ 0 then (1, 1)
  else
    let requiredRate := amount / productionTimeMinutes
    let machineRate := calculateMachineRate recipe
    let exactMachines := requiredRate / machineRate
    (⌈exactMachines⌉, exactMachines)

/-! ## Batch-mode chain resolver (part_000 lines 677-751) -/

/-- A production node pushed by `calculateProductionChain` (batch mode).
Processing nodes carry no `isOre`/`isLiquidSource`/`isExtractor`
properties in JavaScript; the absent (falsy) fields are modelled as
`false`. -/
structure ProductionNode where
  id : ℕ
  itemId : String
  building : String
  amount : ℚ
  depth : ℕ
  isOre : Bool
  isLiquidSource : Bool
  isExtractor : Bool
deriving DecidableEq, Repr

/-- A production edge: `source`/`target` are node ids, `label` is the
displayed `Math.ceil(inputAmount)` figure and `data` carries the exact
`amount` and the flowing `itemId` (the derived string id
`edge-<source>-<target>` and the cosmetic `animated` flag are omitted). -/
structure ProductionEdge where
  source : ℕ
  target : ℕ
  label : ℤ
  amount : ℚ
  itemId : String
deriving DecidableEq, Repr

/-- The `{nodes, edges}` result of one resolver call. -/
structure ChainResult where
  nodes : List ProductionNode
  edges : List ProductionEdge
deriving DecidableEq, Repr

/-- The building chosen for a terminal node (part_000 lines 689-692). -/
def extractorBuilding (itemId : String) : String :=
  if itemId == "water" then "WaterExtractor"
  else if itemId == "crude-oil" then "OilExtractor"
  else if itemId == "nitrogen-gas" then "ResourceWellExtractor"
  else "Miner"

/-- The terminal (extractor) node pushed by the resolver's base case
(part_000 lines 694-703). -/
def terminalNode (cat : Catalog) (itemId : String) (targetAmount : ℚ) (depth ctr : ℕ) :
    ProductionNode :=
  ⟨ctr, itemId, extractorBuilding itemId, targetAmount, depth,
    isOre cat itemId, isLiquidSource itemId, true⟩

/-- The edge pushed for one resolved input, guarded by the JavaScript
`if (subChain.nodes.length > 0)` check (part_000 lines 735-744): it
connects the sub-chain's first node to the consuming parent, labelled
with the rounded-up amount and carrying the exact amount and item id. -/
def parentEdge (parentId : ℕ) (inputAmount : ℚ) (itemId : String) :
    List ProductionNode → List ProductionEdge
  | [] => []
  | n₀ :: _ => [⟨n₀.id, parentId, ⌈inputAmount⌉, inputAmount, itemId⟩]

/-- The `for (const input of recipe.inputs)` loop of the batch resolver
(part_000 lines 722-748), parametrised by the recursive resolver call
`resolve` so that the whole recursion is structural in the fuel.
Returns the accumulated child nodes, the accumulated edges (for each
input: the edge into the parent, then the sub-chain's own edges), and
the threaded node-id counter; a failing recursive call (`none`, fuel
exhaustion) propagates through `Option.bind`. -/
def resolveInputs (resolve : String → ℚ → ℕ → ℕ → Option (ChainResult × ℕ))
    (inputs : List RecipeInput) (cyclesNeeded : ℚ) (depth parentId ctr : ℕ) :
    Option (List ProductionNode × List ProductionEdge × ℕ) :=
  match inputs with
  | [] => some ([], [], ctr)
  | input :: rest =>
    let inputAmount := input.amount * cyclesNeeded
    (resolve input.itemId inputAmount depth ctr).bind fun sc =>
      (resolveInputs resolve rest cyclesNeeded depth parentId sc.2).bind fun t =>
        some (sc.1.nodes ++ t.1,
          parentEdge parentId inputAmount input.itemId sc.1.nodes ++
            sc.1.edges ++ t.2.1, t.2.2)

/-- `calculateProductionChain(itemId, targetAmount, depth, nodeIdCounter)`
in batch mode (part_000 lines 678-751).  The JavaScript guard
`if (!recipe || isOre(itemId) || isLiquidSource(itemId))` is modelled by
first matching on the recipe lookup and then testing the remaining two
disjuncts, which is the same control flow. -/
def calculateProductionChain (cat : Catalog) :
    ℕ → String → ℚ → ℕ → ℕ → Option (ChainResult × ℕ)
  | 0, _, _, _, _ => none
  | fuel + 1, itemId, targetAmount, depth, ctr =>
    match getRecipeForItem cat itemId with
    | none => some (⟨[terminalNode cat itemId targetAmount depth ctr], []⟩, ctr + 1)
    | some recipe =>
      if isOre cat itemId || isLiquidSource itemId then
        some (⟨[terminalNode cat itemId targetAmount depth ctr], []⟩, ctr + 1)
      else
        let cyclesNeeded := targetAmount / recipe.outputAmount
        let selfNode : ProductionNode :=
          ⟨ctr, itemId, recipe.building, targetAmount, depth, false, false, false⟩
        (resolveInputs (calculateProductionChain cat fuel) recipe.inputs
            cyclesNeeded (depth + 1) ctr (ctr + 1)).bind fun t =>
          some (⟨selfNode :: t.1, t.2.1⟩, t.2.2)

/-! ## Topological ranker (part_000 lines 753-797) -/

/-- The reverse-adjacency lookup: the list of sources of the incoming
edges of node `id` (`incomingEdges.get(id)`), in edge order. -/
def srcList (edges : List ProductionEdge) (id : ℕ) : List ℕ :=
  (edges.filter (fun e => e.target == id)).map (fun e => e.source)

/-- The seeding step (part_000 lines 767-772): nodes flagged
`isOre`/`isExtractor` or with no incoming edges get rank 0, all other
ids are unranked (`null`).  The rank store `nodeMap` is modelled as a
function from node id to optional rank. -/
def seedRanks (edges : List ProductionEdge) (nodes : List ProductionNode) :
    ℕ → Option ℕ :=
  fun id =>
    match nodes.find? (fun n => n.id == id) with
    | none => none
    | some n =>
      if n.isOre || n.isExtractor || (srcList edges id).isEmpty then some 0 else none

/-- The body of the relaxation pass for one node (part_000 lines 778-789):
an unranked node whose sources are all ranked receives
`max(source ranks) + 1` and sets the `changed` flag.  (After seeding,
an unranked node always has a nonempty source list, so the fold
`max 0` over the source ranks agrees with `Math.max(...sourceRanks)`.) -/
def rankStep (edges : List ProductionEdge) (acc : (ℕ → Option ℕ) × Bool)
    (n : ProductionNode) : (ℕ → Option ℕ) × Bool :=
  let rk := acc.1
  match rk n.id with
  | some _ => acc
  | none =>
    let srcs := srcList edges n.id
    if srcs.all (fun s => (rk s).isSome) then
      let newRank := (srcs.filterMap rk).foldl max 0 + 1
      (fun k => if k == n.id then some newRank else rk k, true)
    else acc

/-- One `nodeMap.forEach` sweep of the relaxation loop; the map is
iterated in insertion order, i.e. in `chain.nodes` order. -/
def rankPass (edges : List ProductionEdge) (nodes : List ProductionNode)
    (rk : ℕ → Option ℕ) : (ℕ → Option ℕ) × Bool :=
  nodes.foldl (rankStep edges) (rk, false)

/-- The `while (changed)` loop (part_000 lines 775-790), bounded by an
explicit fuel.  Each continuing iteration assigns at least one
previously unranked node, so the loop performs at most
`nodes.length + 1` sweeps; `none` (fuel exhaustion) is unreachable for
the fuel used by `calculateTopologicalRanks` below. -/
def rankLoop (edges : List ProductionEdge) (nodes : List ProductionNode) :
    ℕ → (ℕ → Option ℕ) → Option (ℕ → Option ℕ)
  | 0, _ => none
  | fuel + 1, rk =>
    let p := rankPass edges nodes rk
    if p.2 then rankLoop edges nodes fuel p.1 else some p.1

/-- `calculateTopologicalRanks(chain)` (part_000 lines 754-797): seed,
relax to a fixed point, then annotate every node with its rank,
defaulting to 0 (`?? 0`) for ids the loop never ranked. -/
def calculateTopologicalRanks (chain : ChainResult) :
    Option (List (ProductionNode × ℕ)) :=
  match rankLoop chain.edges chain.nodes (chain.nodes.length + 1)
      (seedRanks chain.edges chain.nodes) with
  | none => none
  | some rk => some (chain.nodes.map (fun n => (n, (rk n.id).getD 0)))

/-! ## Bottleneck / estimated production time (part_000 lines 966-991) -/

/-- Per-node miner settings `{tier, purity}`. -/
structure MinerSettings where
  tier : MinerTier
  purity : Purity
deriving DecidableEq, Repr

/-- The default settings `{ tier: 'Mk.1', purity: 'normal' }`. -/
def defaultMinerSettings : MinerSettings :=
  ⟨.mk1, .normal⟩

/-- The mining time `node.amount / calculateMinerOutput(tier, purity)` of
one node under the settings store (defaulting to Mk.1/normal). -/
def miningTimeOf (settings : ℕ → Option MinerSettings) (n : ProductionNode) : ℚ :=
  let s := (settings n.id).getD defaultMinerSettings
  n.amount / calculateMinerOutput s.tier s.purity

/-- `productionTimeInfo` (part_000 lines 966-991): over the nodes with
`n.isOre` only, track the strictly largest mining time and the item
attaining it; `none` when there are no ore nodes.  The result models
`{totalMinutes, bottleneckItem}`. -/
def productionTimeInfo (chain : ChainResult) (settings : ℕ → Option MinerSettings) :
    Option (ℚ × Option String) :=
  let oreNodes := chain.nodes.filter (fun n => n.isOre)
  if oreNodes.isEmpty then none
  else
    some (oreNodes.foldl
      (fun acc n =>
        let t := miningTimeOf settings n
        if acc.1 < t then (t, some n.itemId) else acc)
      (0, none))

/-! ## Rate-mode variant (`src/App.jsx` lines 151-217) -/

namespace RateMode

/-- A node of the rate-mode resolver: carries a per-minute `rate`; the
processing nodes additionally carry the exact `machinesNeeded`.  The
base case hardcodes `building: 'Miner'` and `isOre: true`. -/
structure RateNode where
  id : ℕ
  itemId : String
  building : String
  rate : ℚ
  machinesNeeded : Option ℚ
  depth : ℕ
  isOre : Bool
deriving DecidableEq, Repr

/-- A rate-mode edge (only `source`/`target`; no label or data). -/
structure RateEdge where
  source : ℕ
  target : ℕ
deriving DecidableEq, Repr

/-- The `{nodes, edges}` result of one rate-mode resolver call. -/
structure RateChainResult where
  nodes : List RateNode
  edges : List RateEdge
deriving DecidableEq, Repr

/-- The edge pushed for one resolved input in rate mode (`App.jsx` lines
202-210), guarded by the `if (subChain.nodes.length > 0)` check. -/
def parentEdge (parentId : ℕ) : List RateNode → List RateEdge
  | [] => []
  | n₀ :: _ => [⟨n₀.id, parentId⟩]

/-- The input loop of the rate-mode resolver (`App.jsx` lines 190-214):
`inputPerMinute = input.amount * cyclesPerMinute * machinesNeeded`. -/
def resolveInputs (resolve : String → ℚ → ℕ → ℕ → Option (RateChainResult × ℕ))
    (inputs : List RecipeInput) (cyclesPerMinute machinesNeeded : ℚ)
    (depth parentId ctr : ℕ) :
    Option (List RateNode × List RateEdge × ℕ) :=
  match inputs with
  | [] => some ([], [], ctr)
  | input :: rest =>
    let inputPerMinute := input.amount * cyclesPerMinute * machinesNeeded
    (resolve input.itemId inputPerMinute depth ctr).bind fun sc =>
      (resolveInputs resolve rest cyclesPerMinute machinesNeeded depth parentId
          sc.2).bind fun t =>
        some (sc.1.nodes ++ t.1,
          parentEdge parentId sc.1.nodes ++ sc.1.edges ++ t.2.1, t.2.2)

/-- `calculateProductionChain(itemId, targetRate, depth, nodeIdCounter)`
in rate mode (`App.jsx` lines 151-217).  The base-case guard is
`if (!recipe || isOre(itemId))` — note: no `isLiquidSource` case, and
the base node always uses building `'Miner'` and `isOre: true`. -/
def calculateProductionChain (cat : Catalog) :
    ℕ → String → ℚ → ℕ → ℕ → Option (RateChainResult × ℕ)
  | 0, _, _, _, _ => none
  | fuel + 1, itemId, targetRate, depth, ctr =>
    match getRecipeForItem cat itemId with
    | none => some (⟨[⟨ctr, itemId, "Miner", targetRate, none, depth, true⟩], []⟩, ctr + 1)
    | some recipe =>
      if isOre cat itemId then
        some (⟨[⟨ctr, itemId, "Miner", targetRate, none, depth, true⟩], []⟩, ctr + 1)
      else
        let cyclesPerMinute := 60 / recipe.cycleTime
        let baseOutputPerMinute := recipe.outputAmount * cyclesPerMinute
        let machinesNeeded := targetRate / baseOutputPerMinute
        let selfNode : RateNode :=
          ⟨ctr, itemId, recipe.building, targetRate, some machinesNeeded, depth, false⟩
        (resolveInputs (calculateProductionChain cat fuel) recipe.inputs
            cyclesPerMinute machinesNeeded (depth + 1) ctr (ctr + 1)).bind fun t =>
          some (⟨selfNode :: t.1, t.2.1⟩, t.2.2)

end RateMode

/-! ## Concrete catalogs used as witnesses and counterexamples -/

/-- A small catalog following the spec's worked scenario
(`iron-plate` 20/6s from `iron-ingot`, `iron-ingot` 30/2s from
`iron-ore`) plus a recipe with a water input. -/
def testItems : List Item :=
  [⟨"iron-ore", "Ore", false⟩, ⟨"iron-ingot", "Ingot", false⟩,
   ⟨"iron-plate", "Standard", false⟩, ⟨"water", "Liquid", true⟩,
   ⟨"gadget", "Industrial", false⟩]

/-- `iron-ingot`: 30 per 2 s cycle in a Smelter from 30 `iron-ore`. -/
def ironIngotRecipe : Recipe :=
  ⟨"iron-ingot", 30, 2, "Smelter", [⟨"iron-ore", 30⟩]⟩

/-- `iron-plate`: 20 per 6 s cycle in a Constructor from 30 `iron-ingot`. -/
def ironPlateRecipe : Recipe :=
  ⟨"iron-plate", 20, 6, "Constructor", [⟨"iron-ingot", 30⟩]⟩

/-- `gadget`: 1 per 60 s cycle in an Assembler from 1 `iron-ore` and
120 `water` (a recipe with a liquid-source input). -/
def gadgetRecipe : Recipe :=
  ⟨"gadget", 1, 60, "Assembler", [⟨"iron-ore", 1⟩, ⟨"water", 120⟩]⟩

/-- The witness catalog. -/
def testCat : Catalog :=
  ⟨testItems, [ironIngotRecipe, ironPlateRecipe, gadgetRecipe]⟩

/-- The empty catalog (every lookup misses). -/
def emptyCat : Catalog :=
  ⟨[], []⟩

/-- A degenerate catalog in which the designated liquid source `water`
has a recipe of its own. -/
def waterRecipeCat : Catalog :=
  ⟨[], [⟨"water", 1, 1, "Packager", [⟨"iron-ore", 1⟩]⟩]⟩

/-- C2: for every item with no recipe, or whose category is Ore, or which
is a designated liquid/gas source, resolving at any amount `N` yields
exactly one node carrying `N`, flagged as an extractor, with no edges. -/
theorem c2_terminal_correctness (cat : Catalog) (itemId : String) (N : ℚ)
    (depth ctr fuel : ℕ)
    (h : getRecipeForItem cat itemId = none ∨ isOre cat itemId = true ∨
      isLiquidSource itemId = true) :
    calculateProductionChain cat (fuel + 1) itemId N depth ctr =
      some (⟨[terminalNode cat itemId N depth ctr], []⟩, ctr + 1) ∧
    (terminalNode cat itemId N depth ctr).amount = N ∧
    (terminalNode cat itemId N depth ctr).isExtractor = true := by
  refine ⟨?_, rfl, rfl⟩
  rcases hrec : getRecipeForItem cat itemId with _ | r
  · simp [calculateProductionChain, hrec]
  · rcases h with h | h | h
    · simp [hrec] at h
    · simp [calculateProductionChain, hrec, h]
    · simp [calculateProductionChain, hrec, h]

theorem c2_witness :
    (getRecipeForItem testCat "iron-ore" = none ∨ isOre testCat "iron-ore" = true ∨
      isLiquidSource "iron-ore" = true) ∧
    calculateProductionChain testCat 1 "iron-ore" 42 0 0 =
      some (⟨[terminalNode testCat "iron-ore" 42 0 0], []⟩, 1) ∧
    (terminalNode testCat "iron-ore" 42 0 0).amount = 42 ∧
    (terminalNode testCat "iron-ore" 42 0 0).isExtractor = true :=
  ⟨by decide, c2_terminal_correctness testCat "iron-ore" 42 0 0 0 (by decide)⟩

/-- C4 counterexample: at `amount = 0` with a present recipe and a
positive window, the code returns `rounded = 0`, violating the claimed
`rounded >= 1 always`. -/
theorem c4_counterexample :
    calculateMachinesNeeded 0 1 (some ironIngotRecipe) = (0, 0) ∧
    ¬ 1 ≤ (calculateMachinesNeeded 0 1 (some ironIngotRecipe)).1 := by
  refine ⟨?_, ?_⟩ <;> with_unfolding_all decide

/-- C4 (amended): `rounded = ⌈exact⌉` holds unconditionally;
`rounded ≥ 1` holds whenever the required amount is positive and the
recipe's machine rate is positive; and the degenerate case (missing
recipe or window `≤ 0`) yields the fallback `(1, 1)`. -/
theorem c4_machine_rounding :
    (∀ (amount w : ℚ) (recipe : Option Recipe),
      (calculateMachinesNeeded amount w recipe).1 =
        ⌈(calculateMachinesNeeded amount w recipe).2⌉) ∧
    (∀ (amount w : ℚ) (r : Recipe),
      0 < amount → 0 < calculateMachineRate (some r) →
      1 ≤ (calculateMachinesNeeded amount w (some r)).1) ∧
    (∀ (amount w : ℚ) (recipe : Option Recipe),
      recipe = none ∨ w ≤ 0 → calculateMachinesNeeded amount w recipe = (1, 1)) := by
  refine ⟨?_, ?_, ?_⟩
  · intro amount w recipe
    unfold calculateMachinesNeeded
    split_ifs with h
    · norm_num
    · rfl
  · intro amount w r ha hr
    unfold calculateMachinesNeeded
    split_ifs with h
    · norm_num
    · simp only [Option.isNone_some, Bool.false_or, decide_eq_true_eq] at h
      have hw : 0 < w := not_le.mp h
      have hpos : 0 < amount / w / calculateMachineRate (some r) :=
        div_pos (div_pos ha hw) hr
      have h2 := Int.ceil_pos.mpr hpos
      show 1 ≤ ⌈amount / w / calculateMachineRate (some r)⌉
      omega
  · intro amount w recipe h
    unfold calculateMachinesNeeded
    rcases h with h | h
    · simp [h]
    · simp [h]

theorem c4_witness :
    (calculateMachinesNeeded 100 1 (some ironIngotRecipe)).1 =
      ⌈(calculateMachinesNeeded 100 1 (some ironIngotRecipe)).2⌉ ∧
    (0 : ℚ) < 100 ∧ 0 < calculateMachineRate (some ironIngotRecipe) ∧
    1 ≤ (calculateMachinesNeeded 100 1 (some ironIngotRecipe)).1 ∧
    calculateMachinesNeeded 100 0 (some ironIngotRecipe) = (1, 1) :=
  ⟨c4_machine_rounding.1 100 1 (some ironIngotRecipe), by norm_num,
    by with_unfolding_all decide,
    c4_machine_rounding.2.1 100 1 ironIngotRecipe (by norm_num)
      (by with_unfolding_all decide),
    c4_machine_rounding.2.2 100 0 (some ironIngotRecipe) (Or.inr (by norm_num))⟩

/-- In a capacity-sorted table whose capacities are bounded by the
sentinel capacity, the selected capacity never drops below a lower
bound common to all entries and the sentinel. -/
theorem findTransportTier_capacity_ge (tiers : List TransportTierEntry)
    (rate lcap b : ℚ) (hb : ∀ t ∈ tiers, b ≤ t.capacity) (hbl : b ≤ lcap) :
    b ≤ (findTransportTier tiers rate lcap).capacity := by
  induction tiers with
  | nil => simpa [findTransportTier] using hbl
  | cons t rest ih =>
    simp only [findTransportTier]
    split_ifs with h
    · exact hb t (List.mem_cons_self t rest)
    · exact ih fun u hu => hb u (List.mem_cons_of_mem t hu)

/-- First-fit semantics: a non-over-limit selection covers the rate and
is capacity-minimal among the covering entries of a sorted table. -/
theorem findTransportTier_first_fit (tiers : List TransportTierEntry)
    (rate lcap : ℚ)
    (hsort : tiers.Pairwise (fun a b => a.capacity ≤ b.capacity))
    (h : (findTransportTier tiers rate lcap).isOverLimit = false) :
    rate ≤ (findTransportTier tiers rate lcap).capacity ∧
    ∀ t ∈ tiers, rate ≤ t.capacity →
      (findTransportTier tiers rate lcap).capacity ≤ t.capacity := by
  induction tiers with
  | nil => simp [findTransportTier] at h
  | cons t rest ih =>
    rcases List.pairwise_cons.mp hsort with ⟨hts, hrest⟩
    simp only [findTransportTier] at h ⊢
    split_ifs at h ⊢ with hc
    · refine ⟨hc, ?_⟩
      intro u hu hru
      rcases List.mem_cons.mp hu with rfl | hu
      · exact le_refl _
      · exact hts u hu
    · rcases ih hrest h with ⟨h1, h2⟩
      refine ⟨h1, ?_⟩
      intro u hu hru
      rcases List.mem_cons.mp hu with rfl | hu
      · exact absurd hru hc
      · exact h2 u hu hru

/-- The scan is literally first-fit: whenever `find?` locates a first
covering entry, the selection is that entry with `isOverLimit = false`. -/
theorem findTransportTier_eq_find (tiers : List TransportTierEntry)
    (rate lcap : ℚ) (t : TransportTierEntry)
    (h : tiers.find? (fun u => decide (rate ≤ u.capacity)) = some t) :
    findTransportTier tiers rate lcap = ⟨t.name, t.capacity, false⟩ := by
  induction tiers with
  | nil => exact Option.noConfusion h
  | cons u rest ih =>
    simp only [findTransportTier]
    by_cases hc : rate ≤ u.capacity
    · rw [List.find?_cons_of_pos] at h
      · rw [if_pos hc, Option.some.inj h]
      · simp [hc]
    · rw [if_neg hc]
      rw [List.find?_cons_of_neg] at h
      · exact ih h
      · simpa using hc

/-- A rate covered by some table entry is never flagged over-limit. -/
theorem findTransportTier_within (tiers : List TransportTierEntry)
    (rate lcap : ℚ) (h : ∃ t ∈ tiers, rate ≤ t.capacity) :
    (findTransportTier tiers rate lcap).isOverLimit = false := by
  induction tiers with
  | nil =>
    obtain ⟨t, ht, _⟩ := h
    exact absurd ht (List.not_mem_nil t)
  | cons t rest ih =>
    simp only [findTransportTier]
    split_ifs with hc
    · rfl
    · apply ih
      obtain ⟨u, hu, hru⟩ := h
      rcases List.mem_cons.mp hu with rfl | hu
      · exact absurd hru hc
      · exact ⟨u, hu, hru⟩

/-- Monotonicity of the selection in the rate, for a sorted table with
capacities bounded by the sentinel capacity. -/
theorem findTransportTier_mono (tiers : List TransportTierEntry)
    (r₁ r₂ lcap : ℚ)
    (hsort : tiers.Pairwise (fun a b => a.capacity ≤ b.capacity))
    (hmax : ∀ t ∈ tiers, t.capacity ≤ lcap)
    (h : r₁ ≤ r₂) :
    (findTransportTier tiers r₁ lcap).capacity ≤
      (findTransportTier tiers r₂ lcap).capacity ∧
    ((findTransportTier tiers r₂ lcap).isOverLimit = false →
      (findTransportTier tiers r₁ lcap).isOverLimit = false) := by
  induction tiers with
  | nil => simp [findTransportTier]
  | cons t rest ih =>
    rcases List.pairwise_cons.mp hsort with ⟨hts, hrest⟩
    have hmax' : ∀ u ∈ rest, u.capacity ≤ lcap :=
      fun u hu => hmax u (List.mem_cons_of_mem t hu)
    simp only [findTransportTier]
    split_ifs with h1 h2 h2
    · exact ⟨le_refl _, fun _ => rfl⟩
    · refine ⟨?_, fun _ => rfl⟩
      exact findTransportTier_capacity_ge rest r₂ lcap t.capacity hts
        (hmax t (List.mem_cons_self t rest))
    · exact absurd (le_trans h h2) h1
    · exact ih hrest hmax'

/-- C5: belt/pipe tier selection returns the first entry of the table
covering the rate, with `isOverLimit = false` (stated via `find?`);
every rate within the table capacity (≤ 1200 for belts, ≤ 600 for
pipes) gets a non-over-limit selection that covers the rate and is
capacity-minimal among the covering tiers; the selected capacity and
over-limit flag are monotone in the rate; and any rate above the table
maximum yields the `'LIMIT'` sentinel carrying the maximum known
capacity. -/
theorem c5_transport_tier_selection :
    (∀ (rate : ℚ) (t : TransportTierEntry),
      BELT_TIERS.find? (fun u => decide (rate ≤ u.capacity)) = some t →
      getRequiredBeltTier rate = ⟨t.name, t.capacity, false⟩) ∧
    (∀ rate : ℚ, rate ≤ 1200 →
      (getRequiredBeltTier rate).isOverLimit = false ∧
      rate ≤ (getRequiredBeltTier rate).capacity ∧
      ∀ t ∈ BELT_TIERS, rate ≤ t.capacity →
        (getRequiredBeltTier rate).capacity ≤ t.capacity) ∧
    (∀ r₁ r₂ : ℚ, r₁ ≤ r₂ →
      (getRequiredBeltTier r₁).capacity ≤ (getRequiredBeltTier r₂).capacity ∧
      ((getRequiredBeltTier r₂).isOverLimit = false →
        (getRequiredBeltTier r₁).isOverLimit = false)) ∧
    (∀ rate : ℚ, 1200 < rate → getRequiredBeltTier rate = ⟨"LIMIT", 1200, true⟩) ∧
    (∀ (rate : ℚ) (t : TransportTierEntry),
      PIPE_TIERS.find? (fun u => decide (rate ≤ u.capacity)) = some t →
      getRequiredPipeTier rate = ⟨t.name, t.capacity, false⟩) ∧
    (∀ rate : ℚ, rate ≤ 600 →
      (getRequiredPipeTier rate).isOverLimit = false ∧
      rate ≤ (getRequiredPipeTier rate).capacity ∧
      ∀ t ∈ PIPE_TIERS, rate ≤ t.capacity →
        (getRequiredPipeTier rate).capacity ≤ t.capacity) ∧
    (∀ r₁ r₂ : ℚ, r₁ ≤ r₂ →
      (getRequiredPipeTier r₁).capacity ≤ (getRequiredPipeTier r₂).capacity ∧
      ((getRequiredPipeTier r₂).isOverLimit = false →
        (getRequiredPipeTier r₁).isOverLimit = false)) ∧
    (∀ rate : ℚ, 600 < rate → getRequiredPipeTier rate = ⟨"LIMIT", 600, true⟩) := by
  have hbeltSort : BELT_TIERS.Pairwise (fun a b => a.capacity ≤ b.capacity) := by
    simp [BELT_TIERS]; norm_num
  have hpipeSort : PIPE_TIERS.Pairwise (fun a b => a.capacity ≤ b.capacity) := by
    simp [PIPE_TIERS]; norm_num
  have hbeltMax : ∀ t ∈ BELT_TIERS, t.capacity ≤ 1200 := by
    simp [BELT_TIERS]; norm_num
  have hpipeMax : ∀ t ∈ PIPE_TIERS, t.capacity ≤ 600 := by
    simp [PIPE_TIERS]; norm_num
  have hbeltTop : (⟨"Mk.6", 1200⟩ : TransportTierEntry) ∈ BELT_TIERS := by
    simp [BELT_TIERS]
  have hpipeTop : (⟨"Mk.2", 600⟩ : TransportTierEntry) ∈ PIPE_TIERS := by
    simp [PIPE_TIERS]
  refine ⟨?_, ?_, ?_, ?_, ?_, ?_, ?_, ?_⟩
  · intro rate t h
    exact findTransportTier_eq_find BELT_TIERS rate 1200 t h
  · intro rate h
    have hoff : (getRequiredBeltTier rate).isOverLimit = false :=
      findTransportTier_within BELT_TIERS rate 1200 ⟨⟨"Mk.6", 1200⟩, hbeltTop, h⟩
    obtain ⟨h1, h2⟩ := findTransportTier_first_fit BELT_TIERS rate 1200 hbeltSort hoff
    exact ⟨hoff, h1, h2⟩
  · intro r₁ r₂ h
    exact findTransportTier_mono BELT_TIERS r₁ r₂ 1200 hbeltSort hbeltMax h
  · intro rate h
    have : ∀ t ∈ BELT_TIERS, t.capacity < rate :=
      fun t ht => lt_of_le_of_lt (hbeltMax t ht) h
    simp only [getRequiredBeltTier, BELT_TIERS, findTransportTier] at *
    split_ifs <;> first | rfl | (exfalso; simp_all; linarith)
  · intro rate t h
    exact findTransportTier_eq_find PIPE_TIERS rate 600 t h
  · intro rate h
    have hoff : (getRequiredPipeTier rate).isOverLimit = false :=
      findTransportTier_within PIPE_TIERS rate 600 ⟨⟨"Mk.2", 600⟩, hpipeTop, h⟩
    obtain ⟨h1, h2⟩ := findTransportTier_first_fit PIPE_TIERS rate 600 hpipeSort hoff
    exact ⟨hoff, h1, h2⟩
  · intro r₁ r₂ h
    exact findTransportTier_mono PIPE_TIERS r₁ r₂ 600 hpipeSort hpipeMax h
  · intro rate h
    have : ∀ t ∈ PIPE_TIERS, t.capacity < rate :=
      fun t ht => lt_of_le_of_lt (hpipeMax t ht) h
    simp only [getRequiredPipeTier, PIPE_TIERS, findTransportTier] at *
    split_ifs <;> first | rfl | (exfalso; simp_all; linarith)

theorem c5_witness :
    (BELT_TIERS.find? (fun u => decide ((100 : ℚ) ≤ u.capacity)) =
        some ⟨"Mk.2", 120⟩ ∧
      getRequiredBeltTier 100 = ⟨"Mk.2", 120, false⟩) ∧
    ((100 : ℚ) ≤ 1200 ∧ (getRequiredBeltTier 100).isOverLimit = false ∧
      (100 : ℚ) ≤ (getRequiredBeltTier 100).capacity) ∧
    ((30 : ℚ) ≤ 100 ∧
      (getRequiredBeltTier 30).capacity ≤ (getRequiredBeltTier 100).capacity) ∧
    ((1200 : ℚ) < 5000 ∧ getRequiredBeltTier 5000 = ⟨"LIMIT", 1200, true⟩) ∧
    (PIPE_TIERS.find? (fun u => decide ((400 : ℚ) ≤ u.capacity)) =
        some ⟨"Mk.2", 600⟩ ∧
      getRequiredPipeTier 400 = ⟨"Mk.2", 600, false⟩) ∧
    ((400 : ℚ) ≤ 600 ∧ (getRequiredPipeTier 400).isOverLimit = false ∧
      (400 : ℚ) ≤ (getRequiredPipeTier 400).capacity) ∧
    ((600 : ℚ) < 700 ∧ getRequiredPipeTier 700 = ⟨"LIMIT", 600, true⟩) :=
  ⟨⟨by with_unfolding_all decide,
      c5_transport_tier_selection.1 100 ⟨"Mk.2", 120⟩
        (by with_unfolding_all decide)⟩,
    ⟨by norm_num, (c5_transport_tier_selection.2.1 100 (by norm_num)).1,
      (c5_transport_tier_selection.2.1 100 (by norm_num)).2.1⟩,
    ⟨by norm_num, (c5_transport_tier_selection.2.2.1 30 100 (by norm_num)).1⟩,
    ⟨by norm_num, c5_transport_tier_selection.2.2.2.1 5000 (by norm_num)⟩,
    ⟨by with_unfolding_all decide,
      c5_transport_tier_selection.2.2.2.2.1 400 ⟨"Mk.2", 600⟩
        (by with_unfolding_all decide)⟩,
    ⟨by norm_num, (c5_transport_tier_selection.2.2.2.2.2.1 400 (by norm_num)).1,
      (c5_transport_tier_selection.2.2.2.2.2.1 400 (by norm_num)).2.1⟩,
    ⟨by norm_num, c5_transport_tier_selection.2.2.2.2.2.2.2 700 (by norm_num)⟩⟩

/-! ## Structural invariants of the batch resolver -/

/-- `List.range'` concatenation in the orientation used below. -/
theorem range'_append_sum (s m n : ℕ) :
    List.range' s m ++ List.range' (s + m) n = List.range' s (m + n) := by
  rw [Nat.add_comm m n]
  exact List.range'_append_1 s m n

/-- If the ids of `ns` are exactly `range' s L`, every member's id lies in
`[s, s + L)`. -/
theorem nodeIds_bounds (ns : List ProductionNode) (s L : ℕ)
    (h : ns.map (fun n => n.id) = List.range' s L) :
    ∀ n ∈ ns, s ≤ n.id ∧ n.id < s + L := by
  intro n hn
  have hm : n.id ∈ List.range' s L := by
    rw [← h]
    exact List.mem_map_of_mem _ hn
  exact List.mem_range'_1.mp hm

/-- A source-count is zero when no edge has the given source. -/
theorem countP_source_zero (es : List ProductionEdge) (k : ℕ)
    (h : ∀ e ∈ es, e.source ≠ k) :
    es.countP (fun e => e.source == k) = 0 :=
  List.countP_eq_zero.mpr (by simpa using h)

/-- Structural invariant of one batch resolver call
`calculateProductionChain cat fuel itemId targetAmount depth ctr
 = some (res, ctr')`. -/
structure ChainInv (itemId : String) (targetAmount : ℚ) (depth ctr : ℕ)
    (res : ChainResult) (ctr' : ℕ) : Prop where
  counter : ctr' = ctr + res.nodes.length
  ids : res.nodes.map (fun n => n.id) = List.range' ctr res.nodes.length
  root : ∃ n₀ tl, res.nodes = n₀ :: tl ∧ n₀.id = ctr ∧ n₀.itemId = itemId ∧
    n₀.amount = targetAmount ∧ n₀.depth = depth
  edgeBounds : ∀ e ∈ res.edges,
    ctr ≤ e.target ∧ e.target < e.source ∧ e.source < ctr'
  edgeSrcNode : ∀ e ∈ res.edges, ∃ n ∈ res.nodes,
    n.id = e.source ∧ n.amount = e.amount ∧ n.itemId = e.itemId
  edgeLabel : ∀ e ∈ res.edges, e.label = ⌈e.amount⌉
  edgeTgtProc : ∀ e ∈ res.edges, ∀ n ∈ res.nodes, n.id = e.target →
    n.isOre = false ∧ n.isExtractor = false
  nodeCount : res.nodes.length = res.edges.length + 1
  srcOnce : ∀ k, ctr < k → k < ctr' →
    res.edges.countP (fun e => e.source == k) = 1
  srcRoot : res.edges.countP (fun e => e.source == ctr) = 0

/-- Structural invariant of the input-resolution loop
`resolveInputs resolve inputs cyc depth parentId ctr = some (ns, es, ctr')`,
for a parent node allocated before `ctr`. -/
structure InputsInv (inputs : List RecipeInput) (cyc : ℚ) (parentId ctr : ℕ)
    (ns : List ProductionNode) (es : List ProductionEdge) (ctr' : ℕ) : Prop where
  counter : ctr' = ctr + ns.length
  ids : ns.map (fun n => n.id) = List.range' ctr ns.length
  edgeBounds : ∀ e ∈ es, (e.target = parentId ∨ ctr ≤ e.target) ∧
    ctr ≤ e.source ∧ e.target < e.source ∧ e.source < ctr'
  edgeSrcNode : ∀ e ∈ es, ∃ n ∈ ns,
    n.id = e.source ∧ n.amount = e.amount ∧ n.itemId = e.itemId
  edgeLabel : ∀ e ∈ es, e.label = ⌈e.amount⌉
  edgeTgtProc : ∀ e ∈ es, ∀ n ∈ ns, n.id = e.target →
    n.isOre = false ∧ n.isExtractor = false
  nodeCount : ns.length = es.length
  srcOnce : ∀ k, ctr ≤ k → k < ctr' →
    es.countP (fun e => e.source == k) = 1
  parentEdges : (es.filter (fun e => e.target == parentId)).map
      (fun e => (e.itemId, e.amount)) =
    inputs.map (fun i => (i.itemId, i.amount * cyc))

/-- The input loop preserves the structural invariant: assuming every
recursive resolver call satisfies `ChainInv`, a successful
`resolveInputs` run satisfies `InputsInv`. -/
theorem resolveInputs_inv
    (resolve : String → ℚ → ℕ → ℕ → Option (ChainResult × ℕ))
    (hres : ∀ it A d c res c₂, resolve it A d c = some (res, c₂) →
      ChainInv it A d c res c₂) :
    ∀ (inputs : List RecipeInput) (cyc : ℚ) (d parentId ctr : ℕ)
      (ns : List ProductionNode) (es : List ProductionEdge) (ctr' : ℕ),
      parentId < ctr →
      resolveInputs resolve inputs cyc d parentId ctr = some (ns, es, ctr') →
      InputsInv inputs cyc parentId ctr ns es ctr' := by
  intro inputs
  induction inputs with
  | nil =>
    intro cyc d parentId ctr ns es ctr' hp h
    simp only [resolveInputs, Option.some.injEq, Prod.mk.injEq] at h
    obtain ⟨rfl, rfl, rfl⟩ := h
    refine ⟨by simp, by simp [List.range'], ?_, ?_, ?_, ?_, rfl, ?_, by simp⟩
    · intro e he; exact absurd he (List.not_mem_nil e)
    · intro e he; exact absurd he (List.not_mem_nil e)
    · intro e he; exact absurd he (List.not_mem_nil e)
    · intro e he; exact absurd he (List.not_mem_nil e)
    · intro k h1 h2; exact absurd (h1.trans_lt h2) (lt_irrefl _)
  | cons input rest ih =>
    intro cyc d parentId ctr ns es ctr' hp h
    simp only [resolveInputs] at h
    rcases hsub : resolve input.itemId (input.amount * cyc) d ctr with _ | ⟨sub, c₁⟩
    · simp [hsub] at h
    simp only [hsub, Option.some_bind] at h
    rcases hrest : resolveInputs resolve rest cyc d parentId c₁ with _ | ⟨ns', es', c₂⟩
    · simp [hrest] at h
    simp only [hrest, Option.some_bind] at h
    have hci := hres _ _ _ _ _ _ hsub
    obtain ⟨n₀, tl, hnodes, hid₀, hitem₀, hamt₀, hdep₀⟩ := hci.root
    have hids := hci.ids
    have hcount := hci.nodeCount
    have hc₁raw : c₁ = ctr + (n₀ :: tl).length := by rw [hci.counter, hnodes]
    rw [hnodes] at hids hcount
    have hc₁ : c₁ = ctr + (tl.length + 1) := by simpa using hc₁raw
    have hpc₁ : parentId < c₁ := by omega
    have hri := ih cyc d parentId c₁ ns' es' c₂ hpc₁ hrest
    have hc₂ : c₂ = c₁ + ns'.length := hri.counter
    rw [hnodes] at h
    simp only [parentEdge, Option.some.injEq, Prod.mk.injEq] at h
    obtain ⟨rfl, rfl, rfl⟩ := h
    have hsubBounds := nodeIds_bounds (n₀ :: tl) ctr (n₀ :: tl).length hids
    have hnsBounds := nodeIds_bounds ns' c₁ ns'.length hri.ids
    have hsubEdges : ∀ e ∈ sub.edges,
        ctr ≤ e.target ∧ e.target < e.source ∧ e.source < c₁ :=
      hci.edgeBounds
    have hsubSrcNode := hci.edgeSrcNode
    rw [hnodes] at hsubSrcNode
    have hsubTgtProc := hci.edgeTgtProc
    rw [hnodes] at hsubTgtProc
    refine ⟨?_, ?_, ?_, ?_, ?_, ?_, ?_, ?_, ?_⟩
    · -- counter
      simp only [List.length_append, List.length_cons]
      omega
    · -- ids
      rw [List.map_append, hids, hri.ids, hc₁raw, range'_append_sum,
        List.length_append]
    · -- edgeBounds
      intro e he
      rcases List.mem_append.mp he with he | he
      · rcases List.mem_append.mp he with he | he
        · obtain rfl := List.mem_singleton.mp he
          refine ⟨Or.inl rfl, ?_, ?_, ?_⟩
          · show ctr ≤ n₀.id
            omega
          · show parentId < n₀.id
            omega
          · show n₀.id < c₂
            omega
        · obtain ⟨h1, h2, h3⟩ := hsubEdges e he
          exact ⟨Or.inr h1, by omega, h2, by omega⟩
      · obtain ⟨h1, h2, h3, h4⟩ := hri.edgeBounds e he
        refine ⟨?_, by omega, h3, h4⟩
        rcases h1 with h1 | h1
        · exact Or.inl h1
        · exact Or.inr (by omega)
    · -- edgeSrcNode
      intro e he
      rcases List.mem_append.mp he with he | he
      · rcases List.mem_append.mp he with he | he
        · obtain rfl := List.mem_singleton.mp he
          exact ⟨n₀, List.mem_append_left _ (List.mem_cons_self _ _),
            rfl, hamt₀, hitem₀⟩
        · obtain ⟨n, hn, hprops⟩ := hsubSrcNode e he
          exact ⟨n, List.mem_append_left _ hn, hprops⟩
      · obtain ⟨n, hn, hprops⟩ := hri.edgeSrcNode e he
        exact ⟨n, List.mem_append_right _ hn, hprops⟩
    · -- edgeLabel
      intro e he
      rcases List.mem_append.mp he with he | he
      · rcases List.mem_append.mp he with he | he
        · obtain rfl := List.mem_singleton.mp he
          rfl
        · exact hci.edgeLabel e he
      · exact hri.edgeLabel e he
    · -- edgeTgtProc
      intro e he n hn hid
      rcases List.mem_append.mp he with he | he
      · rcases List.mem_append.mp he with he | he
        · obtain rfl := List.mem_singleton.mp he
          exfalso
          have hid' : n.id = parentId := hid
          rcases List.mem_append.mp hn with hn | hn
          · have hb := (hsubBounds n hn).1
            omega
          · have hb := (hnsBounds n hn).1
            omega
        · obtain ⟨h1, h2, h3⟩ := hsubEdges e he
          rcases List.mem_append.mp hn with hn | hn
          · exact hsubTgtProc e he n hn hid
          · exfalso
            have hb := (hnsBounds n hn).1
            omega
      · obtain ⟨h1, h2, h3, h4⟩ := hri.edgeBounds e he
        rcases List.mem_append.mp hn with hn | hn
        · exfalso
          have hb := hsubBounds n hn
          simp only [List.length_cons] at hb
          rcases h1 with h1 | h1 <;> omega
        · exact hri.edgeTgtProc e he n hn hid
    · -- nodeCount
      have h2 := hri.nodeCount
      have h3 : tl.length + 1 = sub.edges.length + 1 := by simpa using hcount
      simp only [List.length_append, List.length_cons, List.length_nil]
      omega
    · -- srcOnce
      intro k hk1 hk2
      rw [List.countP_append, List.countP_append]
      by_cases hkc : k = ctr
      · subst hkc
        have e0 := hci.srcRoot
        have e1 : es'.countP (fun e => e.source == k) = 0 := by
          apply countP_source_zero
          intro e he
          have := (hri.edgeBounds e he).2.1
          omega
        rw [e0, e1]
        simp [List.countP_cons, hid₀]
      · by_cases hklt : k < c₁
        · have e1 : sub.edges.countP (fun e => e.source == k) = 1 :=
            hci.srcOnce k (by omega) hklt
          have e2 : es'.countP (fun e => e.source == k) = 0 := by
            apply countP_source_zero
            intro e he
            have := (hri.edgeBounds e he).2.1
            omega
          have e3 : (n₀.id == k) = false := by
            simp only [beq_eq_false_iff_ne, ne_eq]
            omega
          rw [e1, e2]
          simp [List.countP_cons, e3]
        · have e1 : sub.edges.countP (fun e => e.source == k) = 0 := by
            apply countP_source_zero
            intro e he
            have := (hsubEdges e he).2.2
            omega
          have e2 : es'.countP (fun e => e.source == k) = 1 :=
            hri.srcOnce k (by omega) hk2
          have e3 : (n₀.id == k) = false := by
            simp only [beq_eq_false_iff_ne, ne_eq]
            omega
          rw [e1, e2]
          simp [List.countP_cons, e3]
    · -- parentEdges
      rw [List.filter_append, List.filter_append]
      have e0 : sub.edges.filter (fun e => e.target == parentId) = [] := by
        rw [List.filter_eq_nil_iff]
        intro e he
        have := (hsubEdges e he).1
        simp only [beq_iff_eq]
        omega
      have e1 : List.filter (fun e => e.target == parentId)
          [(⟨n₀.id, parentId, ⌈input.amount * cyc⌉, input.amount * cyc,
            input.itemId⟩ : ProductionEdge)] =
          [⟨n₀.id, parentId, ⌈input.amount * cyc⌉, input.amount * cyc,
            input.itemId⟩] := by
        simp
      rw [e0, e1, List.append_nil, List.singleton_append, List.map_cons,
        hri.parentEdges]
      rfl

/-- The base case of the resolver satisfies the structural invariant. -/
theorem chainInv_terminal (cat : Catalog) (itemId : String) (A : ℚ) (d c : ℕ) :
    ChainInv itemId A d c ⟨[terminalNode cat itemId A d c], []⟩ (c + 1) := by
  refine ⟨by simp, by simp [terminalNode, List.range'], ?_, ?_, ?_, ?_, ?_, by simp, ?_, by simp⟩
  · exact ⟨terminalNode cat itemId A d c, [], rfl, rfl, rfl, rfl, rfl⟩
  · intro e he; exact absurd he (List.not_mem_nil e)
  · intro e he; exact absurd he (List.not_mem_nil e)
  · intro e he; exact absurd he (List.not_mem_nil e)
  · intro e he; exact absurd he (List.not_mem_nil e)
  · intro k h1 h2; exact absurd (by omega : k < k) (lt_irrefl k)

/-- Master structural invariant: every successful batch resolver call
satisfies `ChainInv` — consecutive pre-order ids starting at the initial
counter, a root node carrying the requested item and exact amount, edges
pointing from higher (child) ids to strictly lower (parent) ids, one
outgoing edge per non-root node and none for the root, edge data equal
to the source node's exact amount, ceiling-rounding only in edge labels,
and edge targets that are always processing nodes. -/
theorem calculateProductionChain_inv (cat : Catalog) :
    ∀ (fuel : ℕ) (itemId : String) (A : ℚ) (d ctr : ℕ) (res : ChainResult)
      (ctr' : ℕ),
      calculateProductionChain cat fuel itemId A d ctr = some (res, ctr') →
      ChainInv itemId A d ctr res ctr' := by
  intro fuel
  induction fuel with
  | zero =>
    intro it A d c res c₂ h
    simp [calculateProductionChain] at h
  | succ fuel ih =>
    intro it A d c res c₂ h
    rw [calculateProductionChain] at h
    split at h
    · -- no recipe: terminal node
      simp only [Option.some.injEq, Prod.mk.injEq] at h
      obtain ⟨rfl, rfl⟩ := h
      exact chainInv_terminal cat it A d c
    rename_i recipe hrec
    split at h
    · -- ore or liquid source: terminal node
      simp only [Option.some.injEq, Prod.mk.injEq] at h
      obtain ⟨rfl, rfl⟩ := h
      exact chainInv_terminal cat it A d c
    · -- processing node plus recursively resolved inputs
      simp only [] at h
      rcases hresolve : resolveInputs (calculateProductionChain cat fuel)
          recipe.inputs (A / recipe.outputAmount) (d + 1) c (c + 1) with
        _ | ⟨ns, es, c₁⟩
      · simp [hresolve] at h
      simp only [hresolve, Option.some_bind, Option.some.injEq,
        Prod.mk.injEq] at h
      obtain ⟨rfl, rfl⟩ := h
      have hii := resolveInputs_inv (calculateProductionChain cat fuel) ih
        recipe.inputs (A / recipe.outputAmount) (d + 1) c (c + 1) ns es c₁
        (Nat.lt_succ_self c) hresolve
      have hids := hii.ids
      have hc₁ : c₁ = c + 1 + ns.length := hii.counter
      have hnsBounds := nodeIds_bounds ns (c + 1) ns.length hids
      refine ⟨?_, ?_, ?_, ?_, ?_, ?_, ?_, ?_, ?_, ?_⟩
      · -- counter
        simp only [List.length_cons]
        omega
      · -- ids
        simp only [List.map_cons, List.length_cons]
        rw [hids, List.range'_succ]
      · -- root
        exact ⟨_, ns, rfl, rfl, rfl, rfl, rfl⟩
      · -- edgeBounds
        intro e he
        obtain ⟨h1, h2, h3, h4⟩ := hii.edgeBounds e he
        rcases h1 with h1 | h1
        · exact ⟨le_of_eq h1.symm, by omega, by omega⟩
        · exact ⟨by omega, h3, by omega⟩
      · -- edgeSrcNode
        intro e he
        obtain ⟨n, hn, hprops⟩ := hii.edgeSrcNode e he
        exact ⟨n, List.mem_cons_of_mem _ hn, hprops⟩
      · -- edgeLabel
        exact hii.edgeLabel
      · -- edgeTgtProc
        intro e he n hn hid
        rcases List.mem_cons.mp hn with rfl | hn
        · exact ⟨rfl, rfl⟩
        · exact hii.edgeTgtProc e he n hn hid
      · -- nodeCount
        have h1 := hii.nodeCount
        simp only [List.length_cons]
        omega
      · -- srcOnce
        intro k hk1 hk2
        exact hii.srcOnce k (by omega) (by omega)
      · -- srcRoot
        apply countP_source_zero
        intro e he
        have := (hii.edgeBounds e he).2.1
        omega

/-- C1: with a recipe present (and the item neither an ore nor a liquid
source), the resolver emits a processing node carrying exactly the
target amount, and the edges into that node list every recipe input
with the exact linear amount `inputAmountPerCycle * (A / outputAmountPerCycle)`;
every edge's amount equals its source node's amount (the value passed to
the child resolution) and ceiling-rounding appears only in edge labels. -/
theorem c1_mass_conservation (cat : Catalog) (itemId : String) (A : ℚ)
    (d ctr fuel : ℕ) (recipe : Recipe) (res : ChainResult) (ctr' : ℕ)
    (hrec : getRecipeForItem cat itemId = some recipe)
    (hterm : (isOre cat itemId || isLiquidSource itemId) = false)
    (hres : calculateProductionChain cat fuel itemId A d ctr = some (res, ctr')) :
    (∃ n₀ tl, res.nodes = n₀ :: tl ∧ n₀.amount = A ∧
      n₀.building = recipe.building ∧ n₀.isExtractor = false) ∧
    (res.edges.filter (fun e => e.target == ctr)).map
        (fun e => (e.itemId, e.amount)) =
      recipe.inputs.map (fun i => (i.itemId, i.amount * (A / recipe.outputAmount))) ∧
    (∀ e ∈ res.edges, ∃ n ∈ res.nodes, n.id = e.source ∧ n.amount = e.amount) ∧
    (∀ e ∈ res.edges, e.label = ⌈e.amount⌉) := by
  cases fuel with
  | zero => simp [calculateProductionChain] at hres
  | succ fuel =>
    have hci := calculateProductionChain_inv cat (fuel + 1) itemId A d ctr res ctr' hres
    rw [calculateProductionChain] at hres
    split at hres
    · rename_i hrec₂
      rw [hrec] at hrec₂
      simp at hrec₂
    rename_i recipe₂ hrec₂
    rw [hrec] at hrec₂
    obtain rfl := (Option.some.inj hrec₂).symm
    split at hres
    · rename_i hcond
      rw [hterm] at hcond
      simp at hcond
    simp only [] at hres
    rcases hresolve : resolveInputs (calculateProductionChain cat fuel)
        recipe₂.inputs (A / recipe₂.outputAmount) (d + 1) ctr (ctr + 1) with
      _ | ⟨ns, es, c₁⟩
    · simp [hresolve] at hres
    simp only [hresolve, Option.some_bind, Option.some.injEq,
      Prod.mk.injEq] at hres
    obtain ⟨rfl, rfl⟩ := hres
    have hii := resolveInputs_inv (calculateProductionChain cat fuel)
      (calculateProductionChain_inv cat fuel) _ _ _ _ _ _ _ _
      (Nat.lt_succ_self ctr) hresolve
    refine ⟨⟨_, ns, rfl, rfl, rfl, rfl⟩, hii.parentEdges, ?_, hci.edgeLabel⟩
    intro e he
    obtain ⟨n, hn, h1, h2, h3⟩ := hci.edgeSrcNode e he
    exact ⟨n, hn, h1, h2⟩

theorem c1_witness :
    getRecipeForItem testCat "iron-plate" = some ironPlateRecipe ∧
    (isOre testCat "iron-plate" || isLiquidSource "iron-plate") = false ∧
    ((calculateProductionChain testCat 3 "iron-plate" 100 0 0).map
      (fun p => (p.1.edges.filter (fun e => e.target == 0)).map
        (fun e => (e.itemId, e.amount))) =
      some [("iron-ingot", 150)]) ∧
    ironPlateRecipe.inputs.map
        (fun i => (i.itemId, i.amount * (100 / ironPlateRecipe.outputAmount))) =
      [("iron-ingot", 150)] := by
  refine ⟨by decide, by decide, ?_, by with_unfolding_all decide⟩
  have h : ∃ res ctr',
      calculateProductionChain testCat 3 "iron-plate" 100 0 0 = some (res, ctr') ∧
      (res.edges.filter (fun e => e.target == 0)).map
        (fun e => (e.itemId, e.amount)) =
      ironPlateRecipe.inputs.map
        (fun i => (i.itemId, i.amount * (100 / ironPlateRecipe.outputAmount))) := by
    refine ⟨⟨[⟨0, "iron-plate", "Constructor", 100, 0, false, false, false⟩,
      ⟨1, "iron-ingot", "Smelter", 150, 1, false, false, false⟩,
      ⟨2, "iron-ore", "Miner", 150, 2, true, false, true⟩],
      [⟨1, 0, 150, 150, "iron-ingot"⟩, ⟨2, 1, 150, 150, "iron-ore"⟩]⟩, 3,
      by with_unfolding_all decide, ?_⟩
    exact (c1_mass_conservation testCat "iron-plate" 100 0 0 3 ironPlateRecipe _ 3
      (by decide) (by decide) (by with_unfolding_all decide)).2.1
  obtain ⟨res, ctr', heq, hfil⟩ := h
  rw [heq]
  show some ((res.edges.filter (fun e => e.target == 0)).map
    (fun e => (e.itemId, e.amount))) = some [("iron-ingot", 150)]
  rw [hfil]
  with_unfolding_all decide

/-- C10: a resolver run with the JavaScript default arguments
(`depth = 0`, counter starting at 0) yields a tree rooted at the target:
a nonempty node list whose first node carries the requested item and the
full target amount, ids `0 .. n-1` assigned in pre-order (hence pairwise
distinct), exactly `n - 1` edges, and every node except the root is the
source of exactly one edge while the root is the source of none. -/
theorem c10_tree_invariant (cat : Catalog) (itemId : String) (A : ℚ)
    (fuel : ℕ) (res : ChainResult) (ctr' : ℕ)
    (hres : calculateProductionChain cat fuel itemId A 0 0 = some (res, ctr')) :
    (∃ n₀ tl, res.nodes = n₀ :: tl ∧ n₀.id = 0 ∧ n₀.itemId = itemId ∧
      n₀.amount = A) ∧
    res.nodes.map (fun n => n.id) = List.range' 0 res.nodes.length ∧
    (res.nodes.map (fun n => n.id)).Nodup ∧
    res.nodes.length = res.edges.length + 1 ∧
    (∀ n ∈ res.nodes, n.id ≠ 0 →
      res.edges.countP (fun e => e.source == n.id) = 1) ∧
    res.edges.countP (fun e => e.source == 0) = 0 := by
  have hci := calculateProductionChain_inv cat fuel itemId A 0 0 res ctr' hres
  obtain ⟨n₀, tl, hnodes, hid₀, hitem₀, hamt₀, _⟩ := hci.root
  have hbounds := nodeIds_bounds res.nodes 0 res.nodes.length hci.ids
  refine ⟨⟨n₀, tl, hnodes, hid₀, hitem₀, hamt₀⟩, hci.ids, ?_, hci.nodeCount,
    ?_, hci.srcRoot⟩
  · rw [hci.ids]
    exact List.nodup_range' _ _
  · intro n hn hne
    have hb := hbounds n hn
    have hctr : ctr' = 0 + res.nodes.length := hci.counter
    exact hci.srcOnce n.id (by omega) (by omega)

/-- The chain produced for `iron-plate` at amount 100 over `testCat`
(the spec's worked scenario: ore, ingot and plate nodes with ranks
0, 1, 2 after ranking). -/
def plateChain : ChainResult :=
  ⟨[⟨0, "iron-plate", "Constructor", 100, 0, false, false, false⟩,
    ⟨1, "iron-ingot", "Smelter", 150, 1, false, false, false⟩,
    ⟨2, "iron-ore", "Miner", 150, 2, true, false, true⟩],
   [⟨1, 0, 150, 150, "iron-ingot"⟩, ⟨2, 1, 150, 150, "iron-ore"⟩]⟩

theorem c10_witness :
    calculateProductionChain testCat 3 "iron-plate" 100 0 0 =
      some (plateChain, 3) ∧
    (∃ res ctr', calculateProductionChain testCat 3 "iron-plate" 100 0 0 =
        some (res, ctr') ∧
      res.nodes.length = res.edges.length + 1 ∧
      (res.nodes.map (fun n => n.id)).Nodup) := by
  refine ⟨by with_unfolding_all decide, plateChain, 3,
    by with_unfolding_all decide, ?_, ?_⟩
  · exact (c10_tree_invariant testCat "iron-plate" 100 3 plateChain 3
      (by with_unfolding_all decide)).2.2.2.1
  · exact (c10_tree_invariant testCat "iron-plate" 100 3 plateChain 3
      (by with_unfolding_all decide)).2.2.1

/-! ## Counter-shift invariance (determinism up to id renaming) -/

/-- Shift a node id by `k`. -/
def shiftNode (k : ℕ) (n : ProductionNode) : ProductionNode :=
  { n with id := n.id + k }

/-- Shift both endpoints of an edge by `k`. -/
def shiftEdge (k : ℕ) (e : ProductionEdge) : ProductionEdge :=
  { e with source := e.source + k, target := e.target + k }

/-- Shift every id occurring in a chain by `k`. -/
def shiftChain (k : ℕ) (r : ChainResult) : ChainResult :=
  ⟨r.nodes.map (shiftNode k), r.edges.map (shiftEdge k)⟩

/-- Composing two shifts adds the offsets. -/
theorem shiftChain_comp (a b : ℕ) (r : ChainResult) :
    shiftChain a (shiftChain b r) = shiftChain (b + a) r := by
  simp only [shiftChain, List.map_map, ChainResult.mk.injEq]
  refine ⟨List.map_congr_left fun n _ => ?_, List.map_congr_left fun e _ => ?_⟩
  · simp [shiftNode, Nat.add_assoc]
  · simp [shiftEdge, Nat.add_assoc]

/-- The input loop commutes with a uniform counter shift. -/
theorem resolveInputs_shift (k : ℕ)
    (resolve resolveBase : String → ℚ → ℕ → ℕ → Option (ChainResult × ℕ))
    (hres : ∀ it A d c, resolve it A d (c + k) =
      (resolveBase it A d c).map (fun p => (shiftChain k p.1, p.2 + k))) :
    ∀ (inputs : List RecipeInput) (cyc : ℚ) (d pid c : ℕ),
      resolveInputs resolve inputs cyc d (pid + k) (c + k) =
        (resolveInputs resolveBase inputs cyc d pid c).map
          (fun t => (t.1.map (shiftNode k), t.2.1.map (shiftEdge k), t.2.2 + k)) := by
  intro inputs
  induction inputs with
  | nil =>
    intro cyc d pid c
    simp [resolveInputs]
  | cons input rest ih =>
    intro cyc d pid c
    simp only [resolveInputs]
    rw [hres]
    cases hsub : resolveBase input.itemId (input.amount * cyc) d c with
    | none => simp
    | some p =>
      obtain ⟨sub, c₁⟩ := p
      simp only [Option.map_some', Option.some_bind]
      rw [ih]
      cases hrest : resolveInputs resolveBase rest cyc d pid c₁ with
      | none => simp
      | some t =>
        obtain ⟨ns, es, c₂⟩ := t
        simp only [Option.map_some', Option.some_bind]
        cases hn : sub.nodes with
        | nil => simp [shiftChain, hn, parentEdge]
        | cons n₀ tl =>
          simp [shiftChain, hn, shiftEdge, shiftNode, parentEdge]

/-- The batch resolver commutes with a uniform counter shift: starting
the id counter at `c + k` produces exactly the chain obtained from the
counter-`c` run with all ids shifted by `k`. -/
theorem calculateProductionChain_shift (cat : Catalog) (k : ℕ) :
    ∀ (fuel : ℕ) (itemId : String) (A : ℚ) (d c : ℕ),
      calculateProductionChain cat fuel itemId A d (c + k) =
        (calculateProductionChain cat fuel itemId A d c).map
          (fun p => (shiftChain k p.1, p.2 + k)) := by
  intro fuel
  induction fuel with
  | zero =>
    intro it A d c
    simp [calculateProductionChain]
  | succ fuel ih =>
    intro it A d c
    rw [calculateProductionChain, calculateProductionChain]
    cases hrec : getRecipeForItem cat it with
    | none =>
      simp [shiftChain, terminalNode, shiftNode, Nat.add_right_comm c k 1]
    | some recipe =>
      by_cases hterm : (isOre cat it || isLiquidSource it) = true
      · simp only [hterm, if_true]
        simp [shiftChain, terminalNode, shiftNode, Nat.add_right_comm c k 1]
      · simp only [hterm, if_false]
        have hstep : c + k + 1 = (c + 1) + k := by omega
        rw [hstep]
        rw [resolveInputs_shift k (calculateProductionChain cat fuel)
          (calculateProductionChain cat fuel) (fun it A d c => ih it A d c)
          recipe.inputs (A / recipe.outputAmount) (d + 1) c (c + 1)]
        cases hresolve : resolveInputs (calculateProductionChain cat fuel)
            recipe.inputs (A / recipe.outputAmount) (d + 1) c (c + 1) with
        | none => simp
        | some t =>
          obtain ⟨ns, es, c₁⟩ := t
          simp [shiftChain, shiftNode]

/-- C9: the resolver is deterministic and its result depends on the
starting counter only through a uniform id shift — two runs with the
same item and amount but different starting counters yield chains that
become equal once each is shifted by the other's starting counter
(semantically: identical shape, items, buildings, amounts and edge
structure; node identifiers differ only by the fresh-counter offset). -/
theorem c9_resolver_idempotence (cat : Catalog) (fuel : ℕ) (itemId : String)
    (A : ℚ) (d c₁ c₂ : ℕ) (r₁ r₂ : ChainResult) (e₁ e₂ : ℕ)
    (h₁ : calculateProductionChain cat fuel itemId A d c₁ = some (r₁, e₁))
    (h₂ : calculateProductionChain cat fuel itemId A d c₂ = some (r₂, e₂)) :
    shiftChain c₂ r₁ = shiftChain c₁ r₂ ∧ e₁ + c₂ = e₂ + c₁ := by
  have hs₁ := calculateProductionChain_shift cat c₁ fuel itemId A d 0
  have hs₂ := calculateProductionChain_shift cat c₂ fuel itemId A d 0
  rw [Nat.zero_add] at hs₁ hs₂
  rw [hs₁] at h₁
  rw [hs₂] at h₂
  cases h0 : calculateProductionChain cat fuel itemId A d 0 with
  | none =>
    rw [h0] at h₁
    simp at h₁
  | some p =>
    rw [h0] at h₁ h₂
    simp only [Option.map_some', Option.some.injEq, Prod.mk.injEq] at h₁ h₂
    obtain ⟨h₁a, h₁b⟩ := h₁
    obtain ⟨h₂a, h₂b⟩ := h₂
    subst h₁a
    subst h₂a
    constructor
    · rw [shiftChain_comp, shiftChain_comp, Nat.add_comm c₁ c₂]
    · omega

theorem c9_witness :
    calculateProductionChain testCat 3 "iron-plate" 100 0 0 =
      some (plateChain, 3) ∧
    calculateProductionChain testCat 3 "iron-plate" 100 0 5 =
      some (shiftChain 5 plateChain, 8) ∧
    shiftChain 5 plateChain = shiftChain 0 (shiftChain 5 plateChain) ∧
    3 + 5 = 8 + 0 :=
  ⟨by with_unfolding_all decide, by with_unfolding_all decide,
    (c9_resolver_idempotence testCat 3 "iron-plate" 100 0 0 5 plateChain
      (shiftChain 5 plateChain) 3 8 (by with_unfolding_all decide)
      (by with_unfolding_all decide)).1,
    (c9_resolver_idempotence testCat 3 "iron-plate" 100 0 0 5 plateChain
      (shiftChain 5 plateChain) 3 8 (by with_unfolding_all decide)
      (by with_unfolding_all decide)).2⟩

/-! ## Batch-mode versus rate-mode resolver -/

/-- A liquid-source check failure pins the terminal building to `Miner`. -/
theorem extractorBuilding_not_liquidSource (itemId : String)
    (h : isLiquidSource itemId = false) : extractorBuilding itemId = "Miner" := by
  unfold isLiquidSource at h
  simp only [Bool.or_eq_false_iff, beq_eq_false_iff_ne, ne_eq] at h
  obtain ⟨⟨h1, h2⟩, h3⟩ := h
  unfold extractorBuilding
  simp [h1, h2, h3]

/-- Correspondence between a batch node and a rate node: same id, item,
depth, and the batch amount equals the rate; buildings agree except
possibly on liquid/gas-source terminals. -/
def nodeAgrees (n : ProductionNode) (m : RateMode.RateNode) : Prop :=
  n.id = m.id ∧ n.itemId = m.itemId ∧ n.depth = m.depth ∧ n.amount = m.rate ∧
    (isLiquidSource n.itemId = false → n.building = m.building)

/-- Correspondence between a batch edge and a rate edge. -/
def edgeAgrees (e : ProductionEdge) (f : RateMode.RateEdge) : Prop :=
  e.source = f.source ∧ e.target = f.target

/-- Correspondence between the two resolvers' results. -/
def chainAgrees :
    Option (ChainResult × ℕ) → Option (RateMode.RateChainResult × ℕ) → Prop
  | none, none => True
  | some (r, c), some (r', c') =>
    c = c' ∧ List.Forall₂ nodeAgrees r.nodes r'.nodes ∧
      List.Forall₂ edgeAgrees r.edges r'.edges
  | _, _ => False

/-- Correspondence between the two input loops' results. -/
def inputsAgrees :
    Option (List ProductionNode × List ProductionEdge × ℕ) →
    Option (List RateMode.RateNode × List RateMode.RateEdge × ℕ) → Prop
  | none, none => True
  | some (ns, es, c), some (ns', es', c') =>
    c = c' ∧ List.Forall₂ nodeAgrees ns ns' ∧ List.Forall₂ edgeAgrees es es'
  | _, _ => False

/-- The two input loops agree whenever the recursive resolvers agree and
the per-input amounts coincide. -/
theorem resolveInputs_agrees
    (resolve : String → ℚ → ℕ → ℕ → Option (ChainResult × ℕ))
    (resolveR : String → ℚ → ℕ → ℕ → Option (RateMode.RateChainResult × ℕ))
    (hagree : ∀ it A d c, chainAgrees (resolve it A d c) (resolveR it A d c)) :
    ∀ (inputs : List RecipeInput) (cyc cpm mach : ℚ) (d pid c : ℕ),
      (∀ i ∈ inputs, i.amount * cyc = i.amount * cpm * mach) →
      inputsAgrees (resolveInputs resolve inputs cyc d pid c)
        (RateMode.resolveInputs resolveR inputs cpm mach d pid c) := by
  intro inputs
  induction inputs with
  | nil =>
    intro cyc cpm mach d pid c heq
    simp [resolveInputs, RateMode.resolveInputs, inputsAgrees]
  | cons input rest ih =>
    intro cyc cpm mach d pid c heq
    have hsub := hagree input.itemId (input.amount * cyc) d c
    simp only [resolveInputs, RateMode.resolveInputs]
    rw [← heq input (List.mem_cons_self _ _)]
    rcases h₁ : resolve input.itemId (input.amount * cyc) d c with
        _ | ⟨⟨subN, subE⟩, c₁⟩ <;>
      rcases h₂ : resolveR input.itemId (input.amount * cyc) d c with
        _ | ⟨⟨subN', subE'⟩, c₁'⟩
    · simp [inputsAgrees]
    · rw [h₁, h₂] at hsub
      simp [chainAgrees] at hsub
    · rw [h₁, h₂] at hsub
      simp [chainAgrees] at hsub
    · rw [h₁, h₂] at hsub
      simp only [chainAgrees] at hsub
      obtain ⟨rfl, hnodes, hedges⟩ := hsub
      simp only [Option.some_bind]
      have hrest := ih cyc cpm mach d pid c₁
        (fun i hi => heq i (List.mem_cons_of_mem _ hi))
      rcases h₃ : resolveInputs resolve rest cyc d pid c₁ with
          _ | ⟨ns, es, c₂⟩ <;>
        rcases h₄ : RateMode.resolveInputs resolveR rest cpm mach d pid c₁ with
          _ | ⟨ns', es', c₂'⟩
      · simp [inputsAgrees]
      · rw [h₃, h₄] at hrest
        simp [inputsAgrees] at hrest
      · rw [h₃, h₄] at hrest
        simp [inputsAgrees] at hrest
      · rw [h₃, h₄] at hrest
        simp only [inputsAgrees] at hrest
        obtain ⟨rfl, hns, hes⟩ := hrest
        simp only [Option.some_bind, inputsAgrees]
        refine ⟨trivial, List.rel_append hnodes hns, ?_⟩
        cases hnodes with
        | nil =>
          simp only [parentEdge, RateMode.parentEdge, List.nil_append]
          exact List.rel_append hedges hes
        | cons hhd htl =>
          simp only [parentEdge, RateMode.parentEdge]
          exact List.rel_append
            (List.rel_append
              (List.Forall₂.cons ⟨hhd.1, rfl⟩ List.Forall₂.nil) hedges) hes

/-- C7 (amended): over a catalog whose recipes have positive cycle times
and in which no designated liquid/gas source has a recipe of its own,
the batch resolver and the rate resolver perform structurally identical
recursions — same counter, pointwise-corresponding nodes (same id, item,
depth, and batch amount = rate; buildings equal except on liquid-source
terminals) and identical edge structure.  The propagated numbers agree
exactly: both reduce to `inputAmountPerCycle * target / outputAmountPerCycle`. -/
theorem c7_batch_rate_equivalence (cat : Catalog)
    (hct : ∀ r ∈ cat.recipes, 0 < r.cycleTime)
    (hls : ∀ r ∈ cat.recipes, isLiquidSource r.output = false) :
    ∀ (fuel : ℕ) (itemId : String) (A : ℚ) (d c : ℕ),
      chainAgrees (calculateProductionChain cat fuel itemId A d c)
        (RateMode.calculateProductionChain cat fuel itemId A d c) := by
  intro fuel
  induction fuel with
  | zero =>
    intro it A d c
    simp [calculateProductionChain, RateMode.calculateProductionChain, chainAgrees]
  | succ fuel ih =>
    intro it A d c
    rw [calculateProductionChain, RateMode.calculateProductionChain]
    cases hrec : getRecipeForItem cat it with
    | none =>
      simp only [chainAgrees]
      exact ⟨trivial, List.Forall₂.cons
        ⟨rfl, rfl, rfl, rfl, fun h => extractorBuilding_not_liquidSource it h⟩
        List.Forall₂.nil, List.Forall₂.nil⟩
    | some recipe =>
      have hmem : recipe ∈ cat.recipes := List.mem_of_find?_eq_some hrec
      have hout : recipe.output = it := by
        have := List.find?_some hrec
        simpa using this
      have hliq : isLiquidSource it = false := hout ▸ hls recipe hmem
      by_cases hore : isOre cat it = true
      · simp only [hliq, Bool.or_false, hore, if_true, chainAgrees]
        exact ⟨trivial, List.Forall₂.cons
          ⟨rfl, rfl, rfl, rfl, fun h => extractorBuilding_not_liquidSource it h⟩
          List.Forall₂.nil, List.Forall₂.nil⟩
      · have hore' : isOre cat it = false := by
          simpa using hore
        simp only [hliq, Bool.or_false, hore', Bool.false_eq_true, if_false]
        have hct' : 0 < recipe.cycleTime := hct recipe hmem
        have hamt : ∀ i ∈ recipe.inputs,
            i.amount * (A / recipe.outputAmount) =
              i.amount * (60 / recipe.cycleTime) *
                (A / (recipe.outputAmount * (60 / recipe.cycleTime))) := by
          intro i _
          have hcpm : (60 : ℚ) / recipe.cycleTime ≠ 0 :=
            div_ne_zero (by norm_num) (ne_of_gt hct')
          by_cases hout0 : recipe.outputAmount = 0
          · simp [hout0]
          · field_simp
            ring
        have hagree := resolveInputs_agrees (calculateProductionChain cat fuel)
          (RateMode.calculateProductionChain cat fuel) ih recipe.inputs
          (A / recipe.outputAmount) (60 / recipe.cycleTime)
          (A / (recipe.outputAmount * (60 / recipe.cycleTime))) (d + 1) c (c + 1)
          hamt
        rcases h₃ : resolveInputs (calculateProductionChain cat fuel)
            recipe.inputs (A / recipe.outputAmount) (d + 1) c (c + 1) with
          _ | ⟨ns, es, c₂⟩ <;>
          rcases h₄ : RateMode.resolveInputs
              (RateMode.calculateProductionChain cat fuel) recipe.inputs
              (60 / recipe.cycleTime)
              (A / (recipe.outputAmount * (60 / recipe.cycleTime))) (d + 1) c
              (c + 1) with
            _ | ⟨ns', es', c₂'⟩
        · simp [chainAgrees]
        · rw [h₃, h₄] at hagree
          simp [inputsAgrees] at hagree
        · rw [h₃, h₄] at hagree
          simp [inputsAgrees] at hagree
        · rw [h₃, h₄] at hagree
          simp only [inputsAgrees] at hagree
          obtain ⟨rfl, hns, hes⟩ := hagree
          simp only [Option.some_bind, chainAgrees]
          exact ⟨trivial, List.Forall₂.cons ⟨rfl, rfl, rfl, rfl, fun _ => rfl⟩ hns,
            hes⟩

theorem c7_witness :
    (∀ r ∈ testCat.recipes, 0 < r.cycleTime) ∧
    (∀ r ∈ testCat.recipes, isLiquidSource r.output = false) ∧
    chainAgrees (calculateProductionChain testCat 3 "gadget" 1 0 0)
      (RateMode.calculateProductionChain testCat 3 "gadget" 1 0 0) :=
  ⟨by with_unfolding_all decide, by decide,
    c7_batch_rate_equivalence testCat (by with_unfolding_all decide) (by decide)
      3 "gadget" 1 0 0⟩

/-- C7 counterexample: the two resolvers do not produce the same
buildings — for the terminal item `water` the batch resolver emits a
`WaterExtractor` node while the rate resolver always emits `Miner` —
and when a designated liquid source has a recipe the tree shapes differ
(the batch resolver stops at the liquid source, the rate resolver
recurses into the recipe). -/
theorem c7_counterexample :
    ((calculateProductionChain emptyCat 1 "water" 5 0 0).map
      (fun p => p.1.nodes.map (fun n => n.building)) = some ["WaterExtractor"]) ∧
    ((RateMode.calculateProductionChain emptyCat 1 "water" 5 0 0).map
      (fun p => p.1.nodes.map (fun n => n.building)) = some ["Miner"]) ∧
    ((calculateProductionChain waterRecipeCat 2 "water" 5 0 0).map
      (fun p => p.1.nodes.length) = some 1) ∧
    ((RateMode.calculateProductionChain waterRecipeCat 2 "water" 5 0 0).map
      (fun p => p.1.nodes.length) = some 2) := by
  refine ⟨?_, ?_, ?_, ?_⟩ <;> with_unfolding_all decide

/-! ## Bottleneck computation -/

/-- The strict-improvement fold of `productionTimeInfo` computes an upper
bound of the mining times of the traversed nodes, never decreases the
accumulator, and either leaves the accumulator untouched or reports a
traversed node attaining the final value. -/
theorem productionTimeInfo_fold (settings : ℕ → Option MinerSettings) :
    ∀ (l : List ProductionNode) (acc : ℚ × Option String),
      (∀ n ∈ l, miningTimeOf settings n ≤
        (l.foldl (fun acc n =>
          if acc.1 < miningTimeOf settings n then
            (miningTimeOf settings n, some n.itemId) else acc) acc).1) ∧
      acc.1 ≤ (l.foldl (fun acc n =>
          if acc.1 < miningTimeOf settings n then
            (miningTimeOf settings n, some n.itemId) else acc) acc).1 ∧
      ((l.foldl (fun acc n =>
          if acc.1 < miningTimeOf settings n then
            (miningTimeOf settings n, some n.itemId) else acc) acc) = acc ∨
        ∃ n ∈ l, miningTimeOf settings n =
            (l.foldl (fun acc n =>
              if acc.1 < miningTimeOf settings n then
                (miningTimeOf settings n, some n.itemId) else acc) acc).1 ∧
          (l.foldl (fun acc n =>
              if acc.1 < miningTimeOf settings n then
                (miningTimeOf settings n, some n.itemId) else acc) acc).2 =
            some n.itemId) := by
  intro l
  induction l with
  | nil => intro acc; exact ⟨fun n hn => absurd hn (List.not_mem_nil n),
      le_refl _, Or.inl rfl⟩
  | cons n rest ih =>
    intro acc
    simp only [List.foldl_cons]
    obtain ⟨hall, hacc, hor⟩ :=
      ih (if acc.1 < miningTimeOf settings n then
        (miningTimeOf settings n, some n.itemId) else acc)
    refine ⟨?_, ?_, ?_⟩
    · intro m hm
      rcases List.mem_cons.mp hm with rfl | hm
      · refine le_trans ?_ hacc
        split_ifs with hc
        · exact le_refl _
        · exact le_of_not_lt hc
      · exact hall m hm
    · refine le_trans ?_ hacc
      split_ifs with hc
      · exact le_of_lt hc
      · exact le_refl _
    · rcases hor with hor | ⟨m, hm, h1, h2⟩
      · rw [hor]
        split_ifs with hc
        · right
          refine ⟨n, List.mem_cons_self _ _, rfl, rfl⟩
        · left
          rfl
      · right
        exact ⟨m, List.mem_cons_of_mem _ hm, h1, h2⟩

/-- C6 (amended): `productionTimeInfo` returns the running maximum of the
mining times over the nodes flagged `isOre` only (liquid/gas extractor
nodes are not inspected): every ore node's mining time is bounded by the
reported total, and either the fold never improved on the zero seed
(`(0, none)`) or some ore node attains the reported time and is reported
as the bottleneck item. -/
theorem c6_bottleneck (chain : ChainResult) (settings : ℕ → Option MinerSettings)
    (t : ℚ) (b : Option String)
    (h : productionTimeInfo chain settings = some (t, b)) :
    (∀ n ∈ chain.nodes, n.isOre = true → miningTimeOf settings n ≤ t) ∧
    ((t = 0 ∧ b = none) ∨
      ∃ n ∈ chain.nodes, n.isOre = true ∧ miningTimeOf settings n = t ∧
        b = some n.itemId) := by
  unfold productionTimeInfo at h
  simp only [] at h
  split_ifs at h with hne
  simp only [Option.some.injEq] at h
  obtain ⟨hall, hacc, hor⟩ :=
    productionTimeInfo_fold settings (chain.nodes.filter (fun n => n.isOre))
      (0, none)
  rw [h] at hall hor
  constructor
  · intro n hn hore
    exact hall n (List.mem_filter.mpr ⟨hn, by simp [hore]⟩)
  · rcases hor with hor | ⟨n, hn, h1, h2⟩
    · left
      exact ⟨by simpa using congrArg Prod.fst hor,
        by simpa using congrArg Prod.snd hor⟩
    · right
      obtain ⟨hn', hore⟩ := List.mem_filter.mp hn
      exact ⟨n, hn', by simpa using hore, h1, h2⟩

/-- The chain produced for `gadget` at amount 1 over `testCat`: one
processing node, one ore extractor (1 iron ore) and one water extractor
(120 m³ of water). -/
def gadgetChain : ChainResult :=
  ⟨[⟨0, "gadget", "Assembler", 1, 0, false, false, false⟩,
    ⟨1, "iron-ore", "Miner", 1, 1, true, false, true⟩,
    ⟨2, "water", "WaterExtractor", 120, 1, false, true, true⟩],
   [⟨1, 0, 1, 1, "iron-ore"⟩, ⟨2, 0, 120, 120, "water"⟩]⟩

theorem c6_witness :
    productionTimeInfo gadgetChain (fun _ => none) =
      some (1 / 60, some "iron-ore") ∧
    (∀ n ∈ gadgetChain.nodes, n.isOre = true →
      miningTimeOf (fun _ => none) n ≤ 1 / 60) :=
  ⟨by with_unfolding_all decide,
    (c6_bottleneck gadgetChain (fun _ => none) (1 / 60) (some "iron-ore")
      (by with_unfolding_all decide)).1⟩

/-- C6 counterexample: resolving `gadget` at 1 produces a water
extractor node needing 120 m³; `productionTimeInfo` nevertheless reports
1/60 min (the iron-ore time, the water extractor would need 2 min),
because it only scans `isOre` nodes — exactly one extractor node (the
water extractor) has a strictly larger mining time at the default
Mk.1/normal settings, so the reported time is not the maximum over all
terminal (extractor) nodes. -/
theorem c6_counterexample :
    calculateProductionChain testCat 3 "gadget" 1 0 0 = some (gadgetChain, 3) ∧
    productionTimeInfo gadgetChain (fun _ => none) =
      some (1 / 60, some "iron-ore") ∧
    gadgetChain.nodes.countP
      (fun n => n.isExtractor && decide ((1 : ℚ) / 60 <
        n.amount / calculateMinerOutput MinerTier.mk1 Purity.normal)) = 1 := by
  refine ⟨?_, ?_, ?_⟩ <;> with_unfolding_all decide

/-! ## Properties of the topological ranker -/

/-- The initial value is a lower bound of a `max`-fold. -/
theorem foldl_max_init_le (l : List ℕ) : ∀ init : ℕ, init ≤ l.foldl max init := by
  induction l with
  | nil => intro init; exact le_refl _
  | cons a t ih =>
    intro init
    simp only [List.foldl_cons]
    exact le_trans (le_max_left init a) (ih (max init a))

/-- Every member is bounded by a `max`-fold. -/
theorem mem_le_foldl_max (l : List ℕ) : ∀ (init x : ℕ), x ∈ l → x ≤ l.foldl max init := by
  induction l with
  | nil => intro init x hx; exact absurd hx (List.not_mem_nil x)
  | cons a t ih =>
    intro init x hx
    simp only [List.foldl_cons]
    rcases List.mem_cons.mp hx with rfl | hx
    · exact le_trans (le_max_right init x) (foldl_max_init_le t (max init x))
    · exact ih (max init a) x hx

/-- A relaxation step never forgets an assigned rank. -/
theorem rankStep_persist (edges : List ProductionEdge)
    (acc : (ℕ → Option ℕ) × Bool) (n : ProductionNode) (s r : ℕ)
    (h : acc.1 s = some r) : (rankStep edges acc n).1 s = some r := by
  unfold rankStep
  cases hm : acc.1 n.id with
  | some v => simpa [hm] using h
  | none =>
    simp only [hm]
    split_ifs with hall
    · by_cases hs : s = n.id
      · rw [hs] at h
        rw [h] at hm
        exact absurd hm (by simp)
      · simpa [hs] using h
    · exact h

/-- A relaxation sweep never forgets an assigned rank. -/
theorem rankFold_persist (edges : List ProductionEdge) :
    ∀ (l : List ProductionNode) (acc : (ℕ → Option ℕ) × Bool) (s r : ℕ),
      acc.1 s = some r → (l.foldl (rankStep edges) acc).1 s = some r := by
  intro l
  induction l with
  | nil => intro acc s r h; exact h
  | cons n rest ih =>
    intro acc s r h
    exact ih _ s r (rankStep_persist edges acc n s r h)

/-- A step that reports no change is the identity, and the incoming
`changed` flag was false. -/
theorem rankStep_of_not_changed (edges : List ProductionEdge)
    (acc : (ℕ → Option ℕ) × Bool) (n : ProductionNode)
    (h : (rankStep edges acc n).2 = false) :
    rankStep edges acc n = acc ∧ acc.2 = false := by
  unfold rankStep at h ⊢
  cases hm : acc.1 n.id with
  | some v =>
    simp only [hm] at h ⊢
    exact ⟨trivial, h⟩
  | none =>
    simp only [hm] at h ⊢
    by_cases hall : (srcList edges n.id).all (fun s => (acc.1 s).isSome) = true
    · rw [if_pos hall] at h
      simp at h
    · rw [if_neg hall] at h ⊢
      exact ⟨rfl, h⟩

/-- A sweep that reports no change is the identity. -/
theorem rankFold_of_not_changed (edges : List ProductionEdge) :
    ∀ (l : List ProductionNode) (acc : (ℕ → Option ℕ) × Bool),
      (l.foldl (rankStep edges) acc).2 = false →
      l.foldl (rankStep edges) acc = acc ∧ acc.2 = false := by
  intro l
  induction l with
  | nil => intro acc h; exact ⟨rfl, h⟩
  | cons n rest ih =>
    intro acc h
    simp only [List.foldl_cons] at h ⊢
    obtain ⟨h1, h2⟩ := ih (rankStep edges acc n) h
    obtain ⟨h3, h4⟩ := rankStep_of_not_changed edges acc n h2
    exact ⟨by rw [h1, h3], h4⟩

/-- After a sweep with no change, no unranked node had all its sources
ranked (it would have been assigned). -/
theorem rankFold_stable (edges : List ProductionEdge) :
    ∀ (l : List ProductionNode) (acc : (ℕ → Option ℕ) × Bool),
      (l.foldl (rankStep edges) acc).2 = false →
      ∀ n ∈ l, acc.1 n.id = none →
        ¬ (srcList edges n.id).all (fun s => (acc.1 s).isSome) = true := by
  intro l
  induction l with
  | nil => intro acc h n hn; exact absurd hn (List.not_mem_nil n)
  | cons m rest ih =>
    intro acc h n hn hnone hall
    simp only [List.foldl_cons] at h
    obtain ⟨hfold, hstep2⟩ := rankFold_of_not_changed edges rest (rankStep edges acc m) h
    obtain ⟨hstep, hacc2⟩ := rankStep_of_not_changed edges acc m hstep2
    rcases List.mem_cons.mp hn with rfl | hn
    · have htrue : (rankStep edges acc n).2 = true := by
        unfold rankStep
        simp only [hnone, hall, if_true]
      rw [hstep2] at htrue
      exact Bool.noConfusion htrue
    · rw [hstep] at h
      exact absurd hall (ih acc h n hn hnone)

/-- A step that flips the `changed` flag assigned its own node. -/
theorem rankStep_changed_inv (edges : List ProductionEdge)
    (acc : (ℕ → Option ℕ) × Bool) (n : ProductionNode)
    (h : (rankStep edges acc n).2 = true) (h2 : acc.2 = false) :
    acc.1 n.id = none ∧ (rankStep edges acc n).1 n.id ≠ none := by
  unfold rankStep at h ⊢
  cases hm : acc.1 n.id with
  | some v =>
    simp only [hm] at h
    rw [h2] at h
    exact Bool.noConfusion h
  | none =>
    simp only [hm] at h ⊢
    by_cases hall : (srcList edges n.id).all (fun s => (acc.1 s).isSome) = true
    · rw [if_pos hall]
      refine ⟨trivial, ?_⟩
      simp
    · rw [if_neg hall] at h
      rw [h2] at h
      exact Bool.noConfusion h

/-- A sweep that reports a change assigned a node that was unranked. -/
theorem rankFold_changed_witness (edges : List ProductionEdge) :
    ∀ (l : List ProductionNode) (acc : (ℕ → Option ℕ) × Bool),
      (l.foldl (rankStep edges) acc).2 = true → acc.2 = false →
      ∃ n ∈ l, acc.1 n.id = none ∧
        (l.foldl (rankStep edges) acc).1 n.id ≠ none := by
  intro l
  induction l with
  | nil =>
    intro acc h h2
    rw [List.foldl_nil, h2] at h
    exact Bool.noConfusion h
  | cons m rest ih =>
    intro acc h h2
    simp only [List.foldl_cons] at h ⊢
    by_cases hs : (rankStep edges acc m).2 = true
    · obtain ⟨hnone, hsome⟩ := rankStep_changed_inv edges acc m hs h2
      refine ⟨m, List.mem_cons_self _ _, hnone, ?_⟩
      obtain ⟨v, hv⟩ := Option.ne_none_iff_exists'.mp hsome
      have := rankFold_persist edges rest (rankStep edges acc m) m.id v hv
      simp [this]
    · have hs' : (rankStep edges acc m).2 = false := by simpa using hs
      obtain ⟨hstep, _⟩ := rankStep_of_not_changed edges acc m hs'
      rw [hstep] at h ⊢
      obtain ⟨n, hn, h1, h2'⟩ := ih acc h h2
      exact ⟨n, List.mem_cons_of_mem _ hn, h1, h2'⟩

/-- Pointwise implication between predicates gives a filter-length bound. -/
theorem filter_length_mono {α : Type} (p q : α → Bool) :
    ∀ (l : List α), (∀ a ∈ l, q a = true → p a = true) →
      (l.filter q).length ≤ (l.filter p).length := by
  intro l
  induction l with
  | nil => intro _; exact le_refl _
  | cons x xs ih =>
    intro hmono
    have ih' := ih (fun a ha => hmono a (List.mem_cons_of_mem _ ha))
    by_cases hqx : q x = true
    · have hpx := hmono x (List.mem_cons_self _ _) hqx
      simp only [List.filter_cons, hqx, hpx, if_true, List.length_cons]
      exact Nat.succ_le_succ ih'
    · have hqx' : q x = false := by simpa using hqx
      by_cases hpx : p x = true
      · simp only [List.filter_cons, hqx', hpx, if_true, Bool.false_eq_true, if_false,
          List.length_cons]
        exact le_trans ih' (Nat.le_succ _)
      · have hpx' : p x = false := by simpa using hpx
        simp only [List.filter_cons, hqx', hpx', Bool.false_eq_true, if_false]
        exact ih'

/-- A pointwise implication with one strict witness gives a strict
filter-length inequality. -/
theorem filter_length_lt {α : Type} (p q : α → Bool) :
    ∀ (l : List α), (∀ a ∈ l, q a = true → p a = true) →
      (∃ a ∈ l, p a = true ∧ q a = false) →
      (l.filter q).length < (l.filter p).length := by
  intro l
  induction l with
  | nil =>
    intro _ hwit
    obtain ⟨a, ha, _⟩ := hwit
    exact absurd ha (List.not_mem_nil a)
  | cons x xs ih =>
    intro hmono hwit
    have hmono' : ∀ a ∈ xs, q a = true → p a = true :=
      fun a ha => hmono a (List.mem_cons_of_mem _ ha)
    obtain ⟨a, ha, hpa, hqa⟩ := hwit
    rcases List.mem_cons.mp ha with rfl | ha
    · simp only [List.filter_cons, hqa, hpa, if_true, Bool.false_eq_true, if_false,
        List.length_cons]
      exact Nat.lt_succ_of_le (filter_length_mono p q xs hmono')
    · have ihlt := ih hmono' ⟨a, ha, hpa, hqa⟩
      by_cases hqx : q x = true
      · have hpx := hmono x (List.mem_cons_self _ _) hqx
        simp only [List.filter_cons, hqx, hpx, if_true, List.length_cons]
        exact Nat.succ_lt_succ ihlt
      · have hqx' : q x = false := by simpa using hqx
        by_cases hpx : p x = true
        · simp only [List.filter_cons, hqx', hpx, if_true, Bool.false_eq_true, if_false,
            List.length_cons]
          exact Nat.lt_succ_of_lt ihlt
        · have hpx' : p x = false := by simpa using hpx
          simp only [List.filter_cons, hqx', hpx', Bool.false_eq_true, if_false]
          exact ihlt

/-- Soundness invariant for a partial rank assignment: every assigned
rank is either a seed rank 0 or strictly dominates the ranks of all the
node's sources, which are themselves assigned. -/
def GoodRk (edges : List ProductionEdge) (nodes : List ProductionNode)
    (rk : ℕ → Option ℕ) : Prop :=
  ∀ id r, rk id = some r →
    (seedRanks edges nodes id = some 0 ∧ r = 0) ∨
    (∀ s ∈ srcList edges id, ∃ rs, rk s = some rs ∧ rs < r)

/-- A seed rank is always 0. -/
theorem seedRanks_some (edges : List ProductionEdge) (nodes : List ProductionNode)
    (id r : ℕ) (h : seedRanks edges nodes id = some r) : r = 0 := by
  unfold seedRanks at h
  cases hf : nodes.find? (fun n => n.id == id) with
  | none => exact Option.noConfusion (hf ▸ h)
  | some n =>
    simp only [hf] at h
    split_ifs at h with hc
    exact (Option.some.inj h).symm

/-- The seed assignment satisfies the soundness invariant. -/
theorem goodRk_seed (edges : List ProductionEdge) (nodes : List ProductionNode) :
    GoodRk edges nodes (seedRanks edges nodes) := by
  intro id r h
  have hr := seedRanks_some edges nodes id r h
  exact Or.inl ⟨hr ▸ h, hr⟩

/-- A relaxation step preserves the soundness invariant. -/
theorem rankStep_goodRk (edges : List ProductionEdge) (nodes : List ProductionNode)
    (acc : (ℕ → Option ℕ) × Bool) (n : ProductionNode)
    (hg : GoodRk edges nodes acc.1) :
    GoodRk edges nodes (rankStep edges acc n).1 := by
  unfold rankStep
  cases hm : acc.1 n.id with
  | some v => simp only [hm]; exact hg
  | none =>
    simp only [hm]
    by_cases hall : (srcList edges n.id).all (fun s => (acc.1 s).isSome) = true
    · rw [if_pos hall]
      intro id r h
      by_cases hid : id = n.id
      · subst hid
        simp only [beq_self_eq_true, if_true, Option.some.injEq] at h
        right
        intro s hs
        have hsome : (acc.1 s).isSome = true := by
          simpa using List.all_eq_true.mp hall s hs
        obtain ⟨rs, hrs⟩ := Option.isSome_iff_exists.mp hsome
        have hsne : ¬ s = n.id := by
          intro hcon
          rw [hcon, hm] at hrs
          exact Option.noConfusion hrs
        refine ⟨rs, ?_, ?_⟩
        · simp only [show (s == n.id) = false from beq_eq_false_iff_ne.mpr hsne,
            Bool.false_eq_true, if_false]
          exact hrs
        · have hmem : rs ∈ (srcList edges n.id).filterMap acc.1 :=
            List.mem_filterMap.mpr ⟨s, hs, hrs⟩
          have hle := mem_le_foldl_max _ 0 rs hmem
          omega
      · simp only [show (id == n.id) = false from beq_eq_false_iff_ne.mpr hid,
          Bool.false_eq_true, if_false] at h
        rcases hg id r h with hseed | hsrc
        · exact Or.inl hseed
        · right
          intro s hs
          obtain ⟨rs, h1, h2⟩ := hsrc s hs
          by_cases hsn : s = n.id
          · rw [hsn, hm] at h1
            exact Option.noConfusion h1
          · refine ⟨rs, ?_, h2⟩
            simp only [show (s == n.id) = false from beq_eq_false_iff_ne.mpr hsn,
              Bool.false_eq_true, if_false]
            exact h1
    · rw [if_neg hall]
      exact hg

/-- A relaxation sweep preserves the soundness invariant. -/
theorem rankFold_goodRk (edges : List ProductionEdge) (nodes : List ProductionNode) :
    ∀ (l : List ProductionNode) (acc : (ℕ → Option ℕ) × Bool),
      GoodRk edges nodes acc.1 →
      GoodRk edges nodes (l.foldl (rankStep edges) acc).1 := by
  intro l
  induction l with
  | nil => intro acc hg; exact hg
  | cons m rest ih =>
    intro acc hg
    exact ih _ (rankStep_goodRk edges nodes acc m hg)

/-- Number of nodes not yet assigned a rank. -/
def unrankedCount (nodes : List ProductionNode) (rk : ℕ → Option ℕ) : ℕ :=
  (nodes.filter (fun n => (rk n.id).isNone)).length

/-- `rankPass` unfolded. -/
theorem rankPass_eq (edges : List ProductionEdge) (nodes : List ProductionNode)
    (rk : ℕ → Option ℕ) :
    rankPass edges nodes rk = nodes.foldl (rankStep edges) (rk, false) := rfl

/-- With more fuel than unranked nodes, the relaxation loop terminates,
returning a sound assignment that extends the input and is a fixed
point: no remaining unranked node has all its sources ranked. -/
theorem rankLoop_total (edges : List ProductionEdge) (nodes : List ProductionNode) :
    ∀ (fuel : ℕ) (rk : ℕ → Option ℕ),
      unrankedCount nodes rk < fuel → GoodRk edges nodes rk →
      ∃ rk', rankLoop edges nodes fuel rk = some rk' ∧
        GoodRk edges nodes rk' ∧
        (∀ s r, rk s = some r → rk' s = some r) ∧
        (∀ n ∈ nodes, rk' n.id = none →
          ¬ (srcList edges n.id).all (fun s => (rk' s).isSome) = true) := by
  intro fuel
  induction fuel with
  | zero => intro rk hlt _; exact absurd hlt (Nat.not_lt_zero _)
  | succ fuel ih =>
    intro rk hlt hg
    by_cases hch : (rankPass edges nodes rk).2 = true
    · obtain ⟨n, hn, hnone, hsome⟩ :=
        rankFold_changed_witness edges nodes (rk, false) hch rfl
      have hdec : unrankedCount nodes (rankPass edges nodes rk).1 <
          unrankedCount nodes rk := by
        unfold unrankedCount
        apply filter_length_lt
        · intro m hm hq
          cases hrk : rk m.id with
          | none => simp [hrk]
          | some r =>
            exfalso
            have hp := rankFold_persist edges nodes (rk, false) m.id r hrk
            simp only [] at hq
            rw [rankPass_eq, hp] at hq
            simp at hq
        · refine ⟨n, hn, ?_, ?_⟩
          · simp only [Option.isNone_iff_eq_none]
            exact hnone
          · simp only [rankPass_eq]
            cases hx : (nodes.foldl (rankStep edges) (rk, false)).1 n.id with
            | none => exact absurd hx hsome
            | some v => simp [hx]
      have hgood : GoodRk edges nodes (rankPass edges nodes rk).1 := by
        rw [rankPass_eq]
        exact rankFold_goodRk edges nodes nodes (rk, false) hg
      obtain ⟨rk', hl, hg', hpers, hfix⟩ :=
        ih (rankPass edges nodes rk).1 (by omega) hgood
      refine ⟨rk', ?_, hg', ?_, hfix⟩
      · simp only [rankLoop]
        rw [if_pos hch]
        exact hl
      · intro s r h
        apply hpers s r
        rw [rankPass_eq]
        exact rankFold_persist edges nodes (rk, false) s r h
    · have hch' : (rankPass edges nodes rk).2 = false := by simpa using hch
      have hnc := rankFold_of_not_changed edges nodes (rk, false)
        (by rw [← rankPass_eq]; exact hch')
      have hpass1 : (rankPass edges nodes rk).1 = rk := by
        rw [rankPass_eq, hnc.1]
      have hstab : ∀ n ∈ nodes, rk n.id = none →
          ¬ (srcList edges n.id).all (fun s => (rk s).isSome) = true := by
        intro m hm hmn
        exact rankFold_stable edges nodes (rk, false)
          (by rw [← rankPass_eq]; exact hch') m hm hmn
      refine ⟨rk, ?_, hg, fun s r h => h, hstab⟩
      simp only [rankLoop]
      rw [if_neg (by simp [hch']), hpass1]

/-- Membership in the source list of a node. -/
theorem mem_srcList (edges : List ProductionEdge) (id s : ℕ) :
    s ∈ srcList edges id ↔ ∃ e ∈ edges, e.target = id ∧ e.source = s := by
  unfold srcList
  simp only [List.mem_map, List.mem_filter, beq_iff_eq]
  constructor
  · rintro ⟨e, ⟨he, ht⟩, hs⟩
    exact ⟨e, he, ht, hs⟩
  · rintro ⟨e, he, ht, hs⟩
    exact ⟨e, ⟨he, ht⟩, hs⟩

/-- With duplicate-free ids, `find?` on a member's id returns that member. -/
theorem find_id_unique (nodes : List ProductionNode)
    (hnd : (nodes.map (fun n => n.id)).Nodup) (n : ProductionNode)
    (hn : n ∈ nodes) :
    nodes.find? (fun m => m.id == n.id) = some n := by
  induction nodes with
  | nil => exact absurd hn (List.not_mem_nil n)
  | cons m rest ih =>
    simp only [List.map_cons, List.nodup_cons] at hnd
    obtain ⟨hm, hnd'⟩ := hnd
    rcases List.mem_cons.mp hn with rfl | hn
    · rw [List.find?_cons_of_pos]
      simp
    · rw [List.find?_cons_of_neg]
      · exact ih hnd' hn
      · have : n.id ∈ rest.map (fun n => n.id) := List.mem_map_of_mem _ hn
        simp only [beq_iff_eq]
        intro hcon
        exact hm (hcon ▸ this)

/-- At a fixed point of the relaxation on a resolver-shaped graph
(consecutive ids, every edge pointing from a larger id to a smaller
one), every node is ranked: downward induction on the id. -/
theorem ranked_complete (edges : List ProductionEdge) (nodes : List ProductionNode)
    (c len : ℕ)
    (hids : nodes.map (fun n => n.id) = List.range' c len)
    (hbnd : ∀ e ∈ edges, c ≤ e.target ∧ e.target < e.source ∧ e.source < c + len)
    (rk : ℕ → Option ℕ)
    (hfix : ∀ n ∈ nodes, rk n.id = none →
        ¬ (srcList edges n.id).all (fun s => (rk s).isSome) = true) :
    ∀ n ∈ nodes, (rk n.id).isSome = true := by
  suffices h : ∀ m : ℕ, ∀ n ∈ nodes, c + len ≤ n.id + m → (rk n.id).isSome = true by
    intro n hn
    exact h (c + len) n hn (Nat.le_add_left _ _)
  intro m
  induction m with
  | zero =>
    intro n hn hle
    have hb := nodeIds_bounds nodes c len hids n hn
    exact absurd hle (by omega)
  | succ m ihm =>
    intro n hn hle
    by_cases hr : (rk n.id).isSome = true
    · exact hr
    have hnone : rk n.id = none := by
      cases hx : rk n.id with
      | none => rfl
      | some v => exact absurd (by rw [hx]; rfl) hr
    exfalso
    apply hfix n hn hnone
    rw [List.all_eq_true]
    intro s hs
    obtain ⟨e, he, ht, hsrc⟩ := (mem_srcList edges n.id s).mp hs
    obtain ⟨h1, h2, h3⟩ := hbnd e he
    have hmem : e.source ∈ List.range' c len :=
      List.mem_range'_1.mpr ⟨by omega, by omega⟩
    rw [← hids] at hmem
    obtain ⟨nm, hnm, hnmid⟩ := List.mem_map.mp hmem
    have hs' := ihm nm hnm (by omega)
    have : (rk s).isSome = true := by
      rw [← hsrc, ← hnmid]
      exact hs'
    exact this

/-- C8: on every chain produced by the resolver, the relaxation loop of
the topological ranker terminates within `nodes.length + 1` sweeps and
assigns a rank to every node, so `calculateTopologicalRanks` succeeds. -/
theorem c8_ranker_termination (cat : Catalog) (fuel : ℕ) (itemId : String)
    (A : ℚ) (d c : ℕ) (chain : ChainResult) (c₂ : ℕ)
    (hres : calculateProductionChain cat fuel itemId A d c = some (chain, c₂)) :
    ∃ rk, rankLoop chain.edges chain.nodes (chain.nodes.length + 1)
        (seedRanks chain.edges chain.nodes) = some rk ∧
      (∀ n ∈ chain.nodes, (rk n.id).isSome = true) ∧
      calculateTopologicalRanks chain =
        some (chain.nodes.map (fun n => (n, (rk n.id).getD 0))) := by
  have hci := calculateProductionChain_inv cat fuel itemId A d c chain c₂ hres
  have hlt : unrankedCount chain.nodes (seedRanks chain.edges chain.nodes) <
      chain.nodes.length + 1 := by
    unfold unrankedCount
    exact Nat.lt_succ_of_le (List.length_filter_le _ _)
  obtain ⟨rk, hl, hg, hpers, hfix⟩ := rankLoop_total chain.edges chain.nodes
    (chain.nodes.length + 1) (seedRanks chain.edges chain.nodes) hlt
    (goodRk_seed _ _)
  have hbnd : ∀ e ∈ chain.edges, c ≤ e.target ∧ e.target < e.source ∧
      e.source < c + chain.nodes.length := by
    intro e he
    obtain ⟨h1, h2, h3⟩ := hci.edgeBounds e he
    have hc := hci.counter
    exact ⟨h1, h2, by omega⟩
  have hcomp := ranked_complete chain.edges chain.nodes c chain.nodes.length
    hci.ids hbnd rk hfix
  refine ⟨rk, hl, hcomp, ?_⟩
  unfold calculateTopologicalRanks
  rw [hl]

theorem c8_witness :
    ∃ rk, rankLoop plateChain.edges plateChain.nodes
        (plateChain.nodes.length + 1)
        (seedRanks plateChain.edges plateChain.nodes) = some rk ∧
      (∀ n ∈ plateChain.nodes, (rk n.id).isSome = true) ∧
      calculateTopologicalRanks plateChain =
        some (plateChain.nodes.map (fun n => (n, (rk n.id).getD 0))) :=
  c8_ranker_termination testCat 3 "iron-plate" 100 0 0 plateChain 3
    (by with_unfolding_all decide)

/-- C3: for every chain produced by the resolver, after the topological
ranking pass every edge `(s, t)` satisfies `rank t > rank s` (the child
`s` feeds the parent `t`), and every node flagged `isOre` or
`isExtractor` has rank exactly 0. -/
theorem c3_rank_monotonicity (cat : Catalog) (fuel : ℕ) (itemId : String)
    (A : ℚ) (d c : ℕ) (chain : ChainResult) (c₂ : ℕ)
    (ranked : List (ProductionNode × ℕ))
    (hres : calculateProductionChain cat fuel itemId A d c = some (chain, c₂))
    (hranks : calculateTopologicalRanks chain = some ranked) :
    (∀ e ∈ chain.edges, ∀ p ∈ ranked, ∀ q ∈ ranked,
      p.1.id = e.source → q.1.id = e.target → p.2 < q.2) ∧
    (∀ p ∈ ranked, (p.1.isOre || p.1.isExtractor) = true → p.2 = 0) := by
  have hci := calculateProductionChain_inv cat fuel itemId A d c chain c₂ hres
  unfold calculateTopologicalRanks at hranks
  cases hloop : rankLoop chain.edges chain.nodes (chain.nodes.length + 1)
      (seedRanks chain.edges chain.nodes) with
  | none => rw [hloop] at hranks; exact Option.noConfusion hranks
  | some rk =>
    rw [hloop] at hranks
    have hranked : ranked = chain.nodes.map (fun n => (n, (rk n.id).getD 0)) :=
      (Option.some.inj hranks).symm
    have hlt : unrankedCount chain.nodes (seedRanks chain.edges chain.nodes) <
        chain.nodes.length + 1 := by
      unfold unrankedCount
      exact Nat.lt_succ_of_le (List.length_filter_le _ _)
    obtain ⟨rk', hl', hg, hpers, hfix⟩ := rankLoop_total chain.edges chain.nodes
      (chain.nodes.length + 1) (seedRanks chain.edges chain.nodes) hlt
      (goodRk_seed _ _)
    rw [hloop] at hl'
    obtain rfl : rk = rk' := Option.some.inj hl'
    have hbnd : ∀ e ∈ chain.edges, c ≤ e.target ∧ e.target < e.source ∧
        e.source < c + chain.nodes.length := by
      intro e he
      obtain ⟨h1, h2, h3⟩ := hci.edgeBounds e he
      have hc := hci.counter
      exact ⟨h1, h2, by omega⟩
    have hcomp := ranked_complete chain.edges chain.nodes c chain.nodes.length
      hci.ids hbnd rk hfix
    have hnd : (chain.nodes.map (fun n => n.id)).Nodup := by
      rw [hci.ids]
      exact List.nodup_range' _ _
    constructor
    · intro e he p hp q hq hpe hqe
      rw [hranked] at hp hq
      obtain ⟨np, hnp, rfl⟩ := List.mem_map.mp hp
      obtain ⟨nq, hnq, rfl⟩ := List.mem_map.mp hq
      have hpe' : np.id = e.source := hpe
      have hqe' : nq.id = e.target := hqe
      have hqs := hcomp nq hnq
      obtain ⟨rt, hrt⟩ := Option.isSome_iff_exists.mp hqs
      have hsm : e.source ∈ srcList chain.edges nq.id :=
        (mem_srcList _ _ _).mpr ⟨e, he, hqe'.symm, rfl⟩
      rcases hg nq.id rt hrt with ⟨hseed, _⟩ | hsrc
      · exfalso
        unfold seedRanks at hseed
        have hfind := find_id_unique chain.nodes hnd nq hnq
        simp only [hfind] at hseed
        split_ifs at hseed with hc'
        have hflags := hci.edgeTgtProc e he nq hnq hqe'
        have hne : (srcList chain.edges nq.id).isEmpty = false := by
          cases hsl : srcList chain.edges nq.id with
          | nil => rw [hsl] at hsm; exact absurd hsm (List.not_mem_nil _)
          | cons a t => rfl
        rw [hflags.1, hflags.2, hne] at hc'
        simp at hc'
      · obtain ⟨rs, hrs, hlt'⟩ := hsrc e.source hsm
        show (rk np.id).getD 0 < (rk nq.id).getD 0
        rw [hpe', hrs, hrt]
        exact hlt'
    · intro p hp hterm
      rw [hranked] at hp
      obtain ⟨n, hn, rfl⟩ := List.mem_map.mp hp
      have hterm' : (n.isOre || n.isExtractor) = true := hterm
      have hfind := find_id_unique chain.nodes hnd n hn
      have hseed : seedRanks chain.edges chain.nodes n.id = some 0 := by
        unfold seedRanks
        simp only [hfind]
        rw [if_pos]
        rw [hterm']
        simp
      have h0 := hpers n.id 0 hseed
      show (rk n.id).getD 0 = 0
      rw [h0]
      rfl

theorem c3_witness :
    calculateTopologicalRanks plateChain =
      some [(plateChain.nodes.get ⟨0, by with_unfolding_all decide⟩, 2),
        (plateChain.nodes.get ⟨1, by with_unfolding_all decide⟩, 1),
        (plateChain.nodes.get ⟨2, by with_unfolding_all decide⟩, 0)] ∧
    ((∀ e ∈ plateChain.edges,
        ∀ p ∈ [(plateChain.nodes.get ⟨0, by with_unfolding_all decide⟩, 2),
          (plateChain.nodes.get ⟨1, by with_unfolding_all decide⟩, 1),
          (plateChain.nodes.get ⟨2, by with_unfolding_all decide⟩, 0)],
        ∀ q ∈ [(plateChain.nodes.get ⟨0, by with_unfolding_all decide⟩, 2),
          (plateChain.nodes.get ⟨1, by with_unfolding_all decide⟩, 1),
          (plateChain.nodes.get ⟨2, by with_unfolding_all decide⟩, 0)],
        p.1.id = e.source → q.1.id = e.target → p.2 < q.2) ∧
      (∀ p ∈ [(plateChain.nodes.get ⟨0, by with_unfolding_all decide⟩, 2),
          (plateChain.nodes.get ⟨1, by with_unfolding_all decide⟩, 1),
          (plateChain.nodes.get ⟨2, by with_unfolding_all decide⟩, 0)],
        (p.1.isOre || p.1.isExtractor) = true → p.2 = 0)) := by
  refine ⟨by with_unfolding_all decide, ?_⟩
  exact c3_rank_monotonicity testCat 3 "iron-plate" 100 0 0 plateChain 3 _
    (by with_unfolding_all decide) (by with_unfolding_all decide)
